import Mathlib

/-!
# hermes: usage records, reporting calendar and the reserved-instance cost model

A shallow embedding of the parts of `itsubaki/hermes` that its specification
talks about.

* `pkg/reservation/reservation.go`: the `Utilization` record, `Usage`, and the
  six stable sorts that end `Fetch`.
* `calendar/date.go`: `Last`, `LastNMonthsWith`, `LastNDaysWith`, over a model of
  `time.Time` (an instant and the location it is read in, with the zone transitions
  of that location) and of the operations they call (`AddDate`, which goes through
  `time.Date`, `Day`, `Format`).
* `internal/awsprice`: only `record_test.go` is part of the sources; the price
  record, `ExpectedCost`, `BreakevenPointInMonth`, `ExpectedInstanceNum` and the
  filter chain are modelled from the specification text.

Conventions. A Go `panic` is the `none` / `Except.error` result. `float64` money
is modelled over `ℚ`. `sort.Slice` and `sort.SliceStable` are modelled by
insertion sort, which is stable; where a theorem evaluates `sort.Slice` the keys are
pairwise distinct or the slice has one element, so every correct sort returns the
same slice.
-/

namespace Hermes

/-! ## Definitions: pkg/reservation -/

/-- The `Utilization` struct of `pkg/reservation/reservation.go` (lines 17-28).
`Hours` is a `float64` in the source and plays no role in the code embedded here. -/
structure Utilization where
  AccountID : String
  Description : String
  Region : String
  InstanceType : String
  Platform : String
  CacheEngine : String
  DatabaseEngine : String
  DeploymentOption : String
  Date : String
  Hours : ℚ
  deriving DecidableEq

/-- The method `Utilization.Usage` (reservation.go, lines 42-60). The
`panic("invalid usage")` of the source is the `Except.error` result. -/
def Utilization.Usage (u : Utilization) : Except String String :=
  if u.Platform.length > 0 then
    .ok "BoxUsage"
  else if u.CacheEngine.length > 0 then
    .ok "NodeUsage"
  else if u.DatabaseEngine.length > 0 ∧ u.DeploymentOption = "Single-AZ" then
    .ok "InstanceUsage"
  else if u.DatabaseEngine.length > 0 ∧ u.DeploymentOption = "Multi-AZ" then
    .ok "Multi-AZUsage"
  else
    .error "invalid usage"

/-- The four strings `Usage` can return. -/
def usageNames : List String :=
  ["BoxUsage", "NodeUsage", "InstanceUsage", "Multi-AZUsage"]

/-- A database record whose deployment option is neither `Single-AZ` nor `Multi-AZ`:
the database engine is populated, yet `Usage` has no branch for it. -/
def dbWithoutDeployment : Utilization :=
  { AccountID := "012345678901", Description := "example", Region := "ap-northeast-1",
    InstanceType := "db.m4.large", Platform := "", CacheEngine := "",
    DatabaseEngine := "MySQL", DeploymentOption := "", Date := "2018-12", Hours := 744 }

/-- Go's `sort.SliceStable(out, less)`: the stable sort of `l` by the strict order
`less`. An element is inserted in front of the first element that is not less than it,
so elements that `less` does not separate keep their order. -/
def sortSliceStable {α : Type} (less : α → α → Prop) [DecidableRel less] (l : List α) :
    List α :=
  l.insertionSort (fun a b => ¬ less b a)

/-- The tail of `Fetch` (reservation.go, lines 263-270): the six successive
`sort.SliceStable` calls applied to the gathered records `out`, from
`DeploymentOption` (first) to `AccountID` (last). -/
def fetchSort (out : List Utilization) : List Utilization :=
  let out := sortSliceStable (fun a b => a.DeploymentOption < b.DeploymentOption) out
  let out := sortSliceStable (fun a b => a.DatabaseEngine < b.DatabaseEngine) out
  let out := sortSliceStable (fun a b => a.CacheEngine < b.CacheEngine) out
  let out := sortSliceStable (fun a b => a.Platform < b.Platform) out
  let out := sortSliceStable (fun a b => a.Region < b.Region) out
  let out := sortSliceStable (fun a b => a.AccountID < b.AccountID) out
  out

/-- The composite sort key of the specification:
`(AccountID, Region, Platform, CacheEngine, DatabaseEngine, DeploymentOption)`. -/
def sortKey (u : Utilization) : String × String × String × String × String × String :=
  (u.AccountID, u.Region, u.Platform, u.CacheEngine, u.DatabaseEngine, u.DeploymentOption)

/-- The strict lexicographic order on the composite key, written out field by field
(specification side of the comparison with `fetchSort`). -/
def keyLess (a b : Utilization) : Prop :=
  a.AccountID < b.AccountID ∨ (a.AccountID = b.AccountID ∧
  (a.Region < b.Region ∨ (a.Region = b.Region ∧
  (a.Platform < b.Platform ∨ (a.Platform = b.Platform ∧
  (a.CacheEngine < b.CacheEngine ∨ (a.CacheEngine = b.CacheEngine ∧
  (a.DatabaseEngine < b.DatabaseEngine ∨ (a.DatabaseEngine = b.DatabaseEngine ∧
  a.DeploymentOption < b.DeploymentOption)))))))))

instance keyLess.decidable : DecidableRel keyLess :=
  fun a b => by unfold keyLess; infer_instance

/-- The order obtained by sorting with `r1` first and then stably with `r2`:
`r2` decides, and `r1` breaks the ties of `r2` (proof device for `fetchSort`). -/
def lexRel {α : Type} (r2 r1 : α → α → Prop) (a b : α) : Prop :=
  r2 a b ∧ (r2 b a → r1 a b)

instance lexRel.decidable {α : Type} (r2 r1 : α → α → Prop) [DecidableRel r1]
    [DecidableRel r2] : DecidableRel (lexRel r2 r1) :=
  fun a b => by unfold lexRel; infer_instance

/-! ## Definitions: calendar (with the `time.Time` operations it calls) -/

/-- A calendar date (proleptic Gregorian, as in Go). -/
structure Civil where
  year : Int
  month : Nat
  day : Nat
  deriving DecidableEq

/-- Go's leap year rule (`time.isLeap`). -/
def isLeap (year : Int) : Bool :=
  year % 4 = 0 ∧ (year % 100 ≠ 0 ∨ year % 400 = 0)

/-- The number of days of a month. -/
def daysIn (year : Int) (month : Nat) : Nat :=
  if month = 2 then (if isLeap year then 29 else 28)
  else if month = 4 ∨ month = 6 ∨ month = 9 ∨ month = 11 then 30
  else 31

/-- A date that exists in the calendar. -/
def Civil.Valid (c : Civil) : Prop :=
  1 ≤ c.month ∧ c.month ≤ 12 ∧ 1 ≤ c.day ∧ c.day ≤ daysIn c.year c.month

instance Civil.Valid.decidable (c : Civil) : Decidable c.Valid := by
  unfold Civil.Valid; infer_instance

/-- The following calendar day. -/
def nextDay (t : Civil) : Civil :=
  if t.day < daysIn t.year t.month then { t with day := t.day + 1 }
  else if t.month < 12 then { t with month := t.month + 1, day := 1 }
  else { year := t.year + 1, month := 1, day := 1 }

/-- The preceding calendar day. -/
def prevDay (t : Civil) : Civil :=
  if 1 < t.day then { t with day := t.day - 1 }
  else if 1 < t.month then { t with month := t.month - 1, day := daysIn t.year (t.month - 1) }
  else { year := t.year - 1, month := 12, day := 31 }

/-- The calendar day `k` days after `t` (before `t` when `k` is negative). -/
def addDays (t : Civil) (k : Int) : Civil :=
  if 0 ≤ k then nextDay^[k.toNat] t else prevDay^[(-k).toNat] t

/-- A number that orders calendar dates chronologically. -/
def Civil.key (t : Civil) : Int := t.year * 10000 + t.month * 100 + t.day

/-- An instant, given by its calendar date in UTC and the second of that day
(`0 <= sec < 86400`). Go stores the count of seconds since a fixed epoch instead;
the two determine each other. -/
structure Instant where
  date : Civil
  sec : Int
  deriving DecidableEq

/-- The instant `s` seconds after `i` (before `i` when `s` is negative). -/
def Instant.shift (i : Instant) (s : Int) : Instant :=
  { date := addDays i.date ((i.sec + s) / 86400), sec := (i.sec + s) % 86400 }

/-- The instant `a` is earlier than the instant `b`. -/
def Instant.before (a b : Instant) : Prop :=
  a.date.key < b.date.key ∨ (a.date.key = b.date.key ∧ a.sec < b.sec)

instance Instant.before.decidable (a b : Instant) : Decidable (a.before b) := by
  unfold Instant.before; infer_instance

/-- Go's `time.Location`, reduced to what `lookup` reads: the offset (seconds east of
UTC) in force from the beginning of time, and the later transitions in ascending
order, each with the instant from which it holds and its offset. Go keeps the initial
offset as a zone (for a `time.FixedZone` with a transition at the beginning of time,
`alpha`); `time.UTC` and a `time.FixedZone` have no later transition. -/
structure Location where
  offset0 : Int
  tx : List (Instant × Int)
  deriving DecidableEq

/-- The search of `lookup` through the transitions that remain, with the offset and
the start of the period found so far. -/
def lookupFrom (offset : Int) (start : Option Instant) :
    List (Instant × Int) → Instant → Int × Option Instant × Option Instant
  | [], _ => (offset, start, none)
  | (w, o) :: rest, u =>
    if u.before w then (offset, start, some w) else lookupFrom o (some w) rest u

/-- Go's `(*Location).lookup(sec)`: the offset in force at the instant `u` and the
period `[start, end)` during which it is in force; `none` stands for the unbounded
ends `alpha` and `omega`. Go finds the period by bisection; the transitions being in
ascending order, the search from the first one finds the same period. -/
def Location.lookup (l : Location) (u : Instant) : Int × Option Instant × Option Instant :=
  lookupFrom l.offset0 none l.tx u

/-- Go's `time.Time`: an instant and the location in which it is read. The
nanoseconds and the monotonic clock reading play no role in `calendar/date.go`. -/
structure Time where
  utc : Instant
  loc : Location
  deriving DecidableEq

/-- A well-formed time: its UTC date exists and its second is within the day. -/
def Time.Valid (t : Time) : Prop :=
  t.utc.date.Valid ∧ 0 ≤ t.utc.sec ∧ t.utc.sec < 86400

instance Time.Valid.decidable (t : Time) : Decidable t.Valid := by
  unfold Time.Valid; infer_instance

/-- Go's `Time.abs`: the wall clock reading of `t` in its location, the instant
shifted by the offset in force. -/
def Time.abs (t : Time) : Instant :=
  t.utc.shift (t.loc.lookup t.utc).1

/-- Go's `Time.Date()`: year, month and day of `t` in its location. -/
def Time.Date (t : Time) : Civil := t.abs.date

/-- Go's `Time.Clock()`, as the number of seconds since local midnight
(`hour*3600 + min*60 + sec`). -/
def Time.Clock (t : Time) : Int := t.abs.sec

/-- Go's `Time.Day()`. -/
def Time.Day (t : Time) : Int := t.Date.day

/-- The calendar date that Go's `time.Date(year, month, day, ...)` names: the month
is normalised into 1..12 by carrying into the year, and the day is counted from the
first of that month, so it may overflow or underflow the month. -/
def civilDate (year : Int) (month : Int) (day : Int) : Civil :=
  let m := month - 1
  addDays { year := year + m / 12, month := (m % 12).toNat + 1, day := 1 } (day - 1)

/-- Go's `time.Date(year, month, day, hour, min, sec, nsec, loc)`, with the clock
given in seconds since midnight (one that is not within the day overflows into the
date). The reading is first taken as if in UTC (`unix`), then corrected by the
offset that `loc` has at that instant; when the corrected instant falls outside the
period of that offset, the offset at the corrected instant is used instead. A reading
that a zone transition skips therefore comes out as another wall clock reading. -/
def timeDate (year : Int) (month : Int) (day : Int) (clock : Int) (loc : Location) : Time :=
  let unix : Instant := Instant.shift { date := civilDate year month day, sec := 0 } clock
  let found := loc.lookup unix
  if found.1 ≠ 0 then
    let utc := unix.shift (-found.1)
    let early : Bool := match found.2.1 with
      | none => false
      | some start => utc.before start
    let late : Bool := match found.2.2 with
      | none => false
      | some stop => ¬ utc.before stop
    let offset := if early ∨ late then (loc.lookup utc).1 else found.1
    { utc := unix.shift (-offset), loc := loc }
  else
    { utc := unix, loc := loc }

/-- Go's `Time.AddDate(years, months, days)`:
`Date(year+years, month+months, day+days, hour, min, sec, nsec, t.Location())` with
the date and clock of `t` in its location. -/
def Time.AddDate (t : Time) (years months days : Int) : Time :=
  timeDate (t.Date.year + years) ((t.Date.month : Int) + months) ((t.Date.day : Int) + days)
    t.Clock t.loc

/-- The ASCII digit of `d`. -/
def digitChar (d : Nat) : Char := Char.ofNat (48 + d)

/-- The decimal digits of `u`, most significant first; `fuel` bounds their number. -/
def decDigits : Nat → Nat → List Char
  | 0, _ => []
  | fuel + 1, u => (if u / 10 = 0 then [] else decDigits fuel (u / 10)) ++ [digitChar (u % 10)]

/-- Go's `appendInt(b, x, width)` of package `time`: a minus sign for a negative `x`,
then the decimal digits of its absolute value, zero padded on the left to `width`
digits. A Go `int` has at most 19 digits, hence the fuel. -/
def appendInt (x : Int) (width : Nat) : List Char :=
  let ds := decDigits 20 x.natAbs
  (if x < 0 then ['-'] else []) ++ List.replicate (width - ds.length) '0' ++ ds

/-- The text that `Format` prints for a time whose date in its location is `c`, for
the two layouts of `calendar/date.go`. A year outside 0..9999 is not cut to four
digits. Other layouts are not modelled. -/
def Civil.Format (c : Civil) (layout : String) : String :=
  if layout = "2006-01-02" then
    String.mk (appendInt c.year 4 ++ '-' :: appendInt c.month 2 ++ '-' :: appendInt c.day 2)
  else if layout = "2006-01" then
    String.mk (appendInt c.year 4 ++ '-' :: appendInt c.month 2)
  else layout

/-- Go's `Time.Format`: the date of `t` in its location, printed by the layout. -/
def Time.Format (t : Time) (layout : String) : String :=
  t.Date.Format layout

/-- The constant `monthly` of date.go. -/
def monthly : String := "monthly"

/-- The constant `daily` of date.go. -/
def daily : String := "daily"

/-- The `Date` struct of `calendar/date.go` (lines 16-20). -/
structure Date where
  Period : String
  Start : String
  End : String
  deriving DecidableEq

/-- Go's `sort.Slice(out, less)`. Go does not promise a stable sort; where the keys
are pairwise distinct every correct sort returns the same slice, and a slice of one
element is returned as it is. -/
def sortSlice {α : Type} (less : α → α → Prop) [DecidableRel less] (l : List α) : List α :=
  l.insertionSort (fun a b => ¬ less b a)

/-- The value of a Go `int` (64 bit) expression after wrap-around. -/
def wrapInt (x : Int) : Int := (x + 2 ^ 63) % 2 ^ 64 - 2 ^ 63

/-- The function `LastNDaysWith` (date.go, lines 100-123). The loop
`for i := 1; i < n+1; i++` runs for `i = j + 1`, `j < n+1-1`, with `n+1` computed
in 64 bits. -/
def LastNDaysWith (now : Time) (n : Int) : List Date :=
  let days := (List.range (wrapInt (n + 1) - 1).toNat).map
    (fun j : ℕ => now.AddDate 0 0 (-((j : Int) + 1)))
  let tmp := days.map (fun d =>
    { Period := daily, Start := d.Format "2006-01-02",
      End := (d.AddDate 0 0 1).Format "2006-01-02" : Date })
  let out := tmp.reverse
  sortSlice (fun a b => a.Start < b.Start) out

/-- The function `LastNMonthsWith` (date.go, lines 63-90); `none` is the panic for
`n < 1 || n > 12`. -/
def LastNMonthsWith (now : Time) (n : Int) : Option (List Date) :=
  if n < 1 ∨ n > 12 then none
  else
    let months := (List.range (wrapInt (n + 1) - 1).toNat).map
      (fun j : ℕ => now.AddDate 0 (-((j : Int) + 1)) (-now.Day + 1))
    let tmp := months.map (fun m =>
      { Period := monthly, Start := m.Format "2006-01" ++ "-01",
        End := (m.AddDate 0 1 0).Format "2006-01" ++ "-01" : Date })
    let out := tmp.reverse
    some (sortSlice (fun a b => a.Start < b.Start) out)

/-- The function `LastNMonths` (date.go, lines 59-61); `now` stands for `time.Now()`. -/
def LastNMonths (now : Time) (n : Int) : Option (List Date) := LastNMonthsWith now n

/-- The function `LastNDays` (date.go, lines 96-98); `now` stands for `time.Now()`. -/
def LastNDays (now : Time) (n : Int) : List Date := LastNDaysWith now n

/-- The ASCII decimal digits. -/
def isDigit (b : ℕ) : Bool := 48 ≤ b ∧ b ≤ 57

/-- Go's `strconv.Atoi` on the bytes of a string: an optional sign (`+` is 43, `-` is
45), then at least one decimal digit and nothing else, and a value that fits a
64 bit `int`; `none` is a non-nil error. -/
def Atoi (s : List ℕ) : Option Int :=
  match s with
  | [] => none
  | c :: rest =>
    let neg : Bool := c = 45
    let body : List ℕ := if c = 45 ∨ c = 43 then rest else s
    if body = [] ∨ ¬ body.all isDigit = true then none
    else
      let u : ℕ := body.foldl (fun acc b => acc * 10 + (b - 48)) 0
      if neg then (if u ≤ 2 ^ 63 then some (-(u : Int)) else none)
      else (if u < 2 ^ 63 then some (u : Int) else none)

/-- Go's `strings.HasSuffix` on byte strings. -/
def HasSuffix (s suffix : List ℕ) : Bool := suffix.isSuffixOf s

/-- The function `Last` (date.go, lines 38-53). A Go string is its sequence of
bytes, here a list of byte values (`m` is 109, `d` is 100). The result `none` is a
panic (the slice `period[:len(period)-1]` of an empty string, or the panic of
`LastNMonths`); otherwise the pair is the returned slice and error, with `none` for
a nil error. The text of the error is abbreviated. -/
def Last (now : Time) (period : List ℕ) : Option (List Date × Option String) := do
  if period.length = 0 then none
  match Atoi (period.take (period.length - 1)) with
  | none => return ([], some "invalid period")
  | some n =>
    let mut date : List Date := []
    if HasSuffix period [109] then
      date ← LastNMonths now n
    if HasSuffix period [100] then
      date := LastNDays now n
    return (date, none)

/-- The bytes of an ASCII string literal. -/
def ascii (s : String) : List ℕ := s.data.map Char.toNat

/-- The location `time.UTC`. -/
def UTC : Location := { offset0 := 0, tx := [] }

/-- The time with the wall clock reading `date`, `clock` seconds after midnight, in
UTC. -/
def utcTime (date : Civil) (clock : Int) : Time :=
  { utc := { date := date, sec := clock }, loc := UTC }

/-- The location `time.FixedZone("JST", 9*60*60)`. -/
def jst : Location := { offset0 := 32400, tx := [] }

/-- The instant 2019-01-01 03:00 in `jst` (2018-12-31 18:00 UTC). -/
def jstNewYear : Time := { utc := ⟨⟨2018, 12, 31⟩, 64800⟩, loc := jst }

/-- The transitions of `America/Sao_Paulo` in 2018 and 2019 (earlier ones are left
out): UTC-2 until 2018-02-18 02:00 UTC, UTC-3 until the start of daylight saving time
on 2018-11-04 03:00 UTC, when local midnight was followed by 01:00, UTC-2 until
2019-02-17 02:00 UTC, UTC-3 afterwards. -/
def saoPaulo : Location :=
  { offset0 := -7200,
    tx := [(⟨⟨2018, 2, 18⟩, 7200⟩, -10800), (⟨⟨2018, 11, 4⟩, 10800⟩, -7200),
      (⟨⟨2019, 2, 17⟩, 7200⟩, -10800)] }

/-- The instant 2018-11-05 00:30 in `saoPaulo` (02:30 UTC). -/
def saoPauloNow : Time := { utc := ⟨⟨2018, 11, 5⟩, 9000⟩, loc := saoPaulo }

/-- The transitions of `America/Asuncion` in 2017 and 2018 (earlier ones are left
out): UTC-3 until 2017-03-26 03:00 UTC, UTC-4 until the start of daylight saving time
on 2017-10-01 04:00 UTC, when local midnight was followed by 01:00, UTC-3 until
2018-03-25 03:00 UTC, UTC-4 until 2018-10-07 04:00 UTC, UTC-3 afterwards. -/
def asuncion : Location :=
  { offset0 := -10800,
    tx := [(⟨⟨2017, 3, 26⟩, 10800⟩, -14400), (⟨⟨2017, 10, 1⟩, 14400⟩, -10800),
      (⟨⟨2018, 3, 25⟩, 10800⟩, -14400), (⟨⟨2018, 10, 7⟩, 14400⟩, -10800)] }

/-- The instant 2017-11-15 00:30 in `asuncion` (03:30 UTC). -/
def asuncionNow : Time := { utc := ⟨⟨2017, 11, 15⟩, 12600⟩, loc := asuncion }

/-- The ASCII digit of the last decimal digit of `n` (proof device). -/
def dg (n : Nat) : Char := digitChar (n % 10)

/-- The daily window that starts `k` days after the date `today` and ends on the
following day (specification side of `LastNDaysWith`). -/
def dailyWindow (today : Civil) (k : Int) : Date :=
  { Period := daily, Start := (addDays today k).Format "2006-01-02",
    End := (addDays today (k + 1)).Format "2006-01-02" }

/-- The first day of the calendar month `k` months after the month of the date
`today` (specification side of `LastNMonthsWith`). -/
def monthStart (today : Civil) (k : Int) : Civil :=
  let idx : Int := today.year * 12 + ((today.month : Int) - 1) + k
  { year := idx / 12, month := (idx % 12).toNat + 1, day := 1 }

/-- The monthly window of the calendar month `k` months after the month of `today`. -/
def monthlyWindow (today : Civil) (k : Int) : Date :=
  { Period := monthly, Start := (monthStart today k).Format "2006-01-02",
    End := (monthStart today (k + 1)).Format "2006-01-02" }

/-! ## Definitions: internal/awsprice (implementation absent, modelled from the spec) -/

/-- Modelled from the spec: the lease contract length of a price offer, which the
data model gives as `1 year | 3 years` (`"1yr"` and `"3yr"` in `record_test.go`). -/
inductive LeaseLength where
  | yr1
  | yr3
  deriving DecidableEq

/-- Modelled from the spec: the price record, whose struct declaration is in the
absent `record.go`. The fields are those of the literal in `TestExpect`
(`record_test.go`, lines 130-147) and `Engine`, read in `TestFindByInstanceTypeCache`.
`OnDemand` is the on-demand hourly rate, `ReservedHrs` the reserved hourly rate and
`ReservedQuantity` the upfront price per instance. -/
structure Record where
  SKU : String
  OfferTermCode : String
  Region : String
  InstanceType : String
  UsageType : String
  LeaseContractLength : LeaseLength
  PurchaseOption : String
  OnDemand : ℚ
  ReservedHrs : ℚ
  ReservedQuantity : ℚ
  Tenancy : String
  PreInstalled : String
  OperatingSystem : String
  Engine : String
  Operation : String
  OfferingClass : String
  NormalizationSizeFactor : String

/-- Modelled from the spec: `termYears` is 1 for a 1-year lease and 3 for a 3-year
lease. -/
def termYears : LeaseLength → ℕ
  | .yr1 => 1
  | .yr3 => 3

/-- Modelled from the spec: `hoursPerYear(8760)`. -/
def hoursPerYear : ℕ := 8760

/-- Modelled from the spec: `termHours = hoursPerYear(8760) * termYears(offer)`. -/
def Record.termHours (r : Record) : ℕ := hoursPerYear * termYears r.LeaseContractLength

/-- Modelled from the spec: the number of months of the lease term, twelve a year. -/
def Record.termMonths (r : Record) : ℕ := 12 * termYears r.LeaseContractLength

/-- Modelled from the spec: `hoursPerMonth = termHours / termMonths`. -/
def Record.hoursPerMonth (r : Record) : ℚ := (r.termHours : ℚ) / (r.termMonths : ℚ)

/-- Modelled from the spec: the reserved-applied cost of a `CostProjection`, split
into its on-demand portion and its reserved portion, with their total. -/
structure ReservedAppliedCost where
  OnDemand : ℚ
  Reserved : ℚ
  Total : ℚ

/-- Modelled from the spec: the `CostProjection` returned by `ExpectedCost`
(`Subtraction` is the savings, as `record_test.go` names it). -/
structure ExpectedCost where
  FullOnDemand : ℚ
  ReservedApplied : ReservedAppliedCost
  Subtraction : ℚ
  DiscountRate : ℚ

/-- Modelled from the spec: `expectedCost(onDemandCount, reservedCount)` of section 4.2,
whose implementation is in the absent `record.go`. -/
def Record.ExpectedCost (r : Record) (ondemandNum reservedNum : ℕ) : ExpectedCost :=
  let full : ℚ := r.OnDemand * r.termHours * ((ondemandNum : ℚ) + (reservedNum : ℚ))
  let ond : ℚ := r.OnDemand * r.termHours * ondemandNum
  let res : ℚ := r.ReservedQuantity * reservedNum + r.ReservedHrs * r.termHours * reservedNum
  let total : ℚ := ond + res
  let savings : ℚ := full - total
  { FullOnDemand := full
    ReservedApplied := { OnDemand := ond, Reserved := res, Total := total }
    Subtraction := savings
    DiscountRate := if full = 0 then 0 else savings / full }

/-- Modelled from the spec: the cumulative reserved cost at month `m`,
`upfrontPricePerInstance + reservedHourlyRate * hoursPerMonth * m`. -/
def Record.reservedCostAt (r : Record) (m : ℕ) : ℚ :=
  r.ReservedQuantity + r.ReservedHrs * r.hoursPerMonth * m

/-- Modelled from the spec: the cumulative on-demand cost at month `m`,
`onDemandRate * hoursPerMonth * m`. -/
def Record.onDemandCostAt (r : Record) (m : ℕ) : ℚ :=
  r.OnDemand * r.hoursPerMonth * m

/-- Modelled from the spec: `breakevenPointInMonth()` of section 4.2, whose
implementation is in the absent `record.go`: the first month of `1..termMonths` at
which the cumulative reserved cost is at most the cumulative on-demand cost. When no
month of the range qualifies the spec calls the case a modeling anomaly; that is the
`none` result. -/
def Record.BreakevenPointInMonth (r : Record) : Option ℕ :=
  (List.range' 1 r.termMonths).find? (fun m => decide (r.reservedCostAt m ≤ r.onDemandCostAt m))

/-- Modelled from the spec: a forecast entry, `(period label, projected instance
count)`. -/
structure Forecast where
  Month : String
  InstanceNum : ℚ

/-- Modelled from the spec: the result of `expectedInstanceNum`, the recommended
on-demand requirement and reserved requirement. -/
structure ExpectedInstanceNum where
  OnDemandInstanceNum : ℚ
  ReservedInstanceNum : ℚ

/-- Modelled from the spec: the mean projected instance count across all entries. -/
def meanInstanceNum (forecast : List Forecast) : ℚ :=
  (forecast.map (·.InstanceNum)).sum / (forecast.length : ℚ)

/-- Modelled from the spec: `expectedInstanceNum(forecast)` of section 4.2, whose
implementation is in the absent `record.go`. The spec derives the existing reserved
commitment from the record in a way it leaves open; it is the parameter `commitment`
here, in instance-count terms, `none` when the offer carries no applicable
commitment. The portion of the mean covered by the commitment is the reserved
requirement and the remainder the on-demand requirement. -/
def Record.ExpectedInstanceNum (_r : Record) (commitment : Option ℚ)
    (forecast : List Forecast) : ExpectedInstanceNum :=
  let mean := meanInstanceNum forecast
  match commitment with
  | none => { OnDemandInstanceNum := mean, ReservedInstanceNum := 0 }
  | some c =>
    let covered := min mean c
    { OnDemandInstanceNum := mean - covered, ReservedInstanceNum := covered }

/-- Modelled from the spec: an `OfferSet`, an ordered sequence of price offers. -/
abbrev RecordList := List Record

/-- Modelled from the spec: the narrowing operation on the operating system, a plain
equality predicate against the field that returns a new offer set. -/
def RecordList.OperatingSystem (rs : RecordList) (v : String) : RecordList :=
  rs.filter (fun r => r.OperatingSystem = v)

/-- Modelled from the spec: the narrowing operation on the tenancy. -/
def RecordList.Tenancy (rs : RecordList) (v : String) : RecordList :=
  rs.filter (fun r => r.Tenancy = v)

/-- Modelled from the spec: the narrowing operation on the pre-installed flag. -/
def RecordList.PreInstalled (rs : RecordList) (v : String) : RecordList :=
  rs.filter (fun r => r.PreInstalled = v)

/-- Modelled from the spec: the narrowing operation on the offering class. -/
def RecordList.OfferingClass (rs : RecordList) (v : String) : RecordList :=
  rs.filter (fun r => r.OfferingClass = v)

/-- Modelled from the spec: the narrowing operation on the lease contract length. -/
def RecordList.LeaseContractLength (rs : RecordList) (v : LeaseLength) : RecordList :=
  rs.filter (fun r => r.LeaseContractLength = v)

/-- Modelled from the spec: the narrowing operation on the cache or database engine. -/
def RecordList.Engine (rs : RecordList) (v : String) : RecordList :=
  rs.filter (fun r => r.Engine = v)

/-- Modelled from the spec: the narrowing operation on the purchase option. -/
def RecordList.PurchaseOption (rs : RecordList) (v : String) : RecordList :=
  rs.filter (fun r => r.PurchaseOption = v)

/-- One step of a filter chain: a narrowing operation with its argument. -/
inductive Narrowing where
  | OperatingSystem (v : String)
  | Tenancy (v : String)
  | PreInstalled (v : String)
  | OfferingClass (v : String)
  | LeaseContractLength (v : LeaseLength)
  | Engine (v : String)
  | PurchaseOption (v : String)

/-- The offer set after one step of a filter chain. -/
def Narrowing.apply (rs : RecordList) : Narrowing → RecordList
  | .OperatingSystem v => RecordList.OperatingSystem rs v
  | .Tenancy v => RecordList.Tenancy rs v
  | .PreInstalled v => RecordList.PreInstalled rs v
  | .OfferingClass v => RecordList.OfferingClass rs v
  | .LeaseContractLength v => RecordList.LeaseContractLength rs v
  | .Engine v => RecordList.Engine rs v
  | .PurchaseOption v => RecordList.PurchaseOption rs v

/-- A filter chain: the narrowing operations `ops` applied to `seed` from left to
right. -/
def narrowAll (seed : RecordList) (ops : List Narrowing) : RecordList :=
  ops.foldl Narrowing.apply seed

/-- The predicate of a narrowing operation (proof device). -/
def Narrowing.keeps : Narrowing → Record → Bool
  | .OperatingSystem v, r => r.OperatingSystem = v
  | .Tenancy v, r => r.Tenancy = v
  | .PreInstalled v, r => r.PreInstalled = v
  | .OfferingClass v, r => r.OfferingClass = v
  | .LeaseContractLength v, r => r.LeaseContractLength = v
  | .Engine v, r => r.Engine = v
  | .PurchaseOption v, r => r.PurchaseOption = v

/-- An m4.large Linux offer of `ap-northeast-1` with the on-demand rate 0.129 of
`TestExpect`, for a given lease, purchase option, reserved hourly rate and upfront
price. -/
def m4large (lease : LeaseLength) (purchase : String) (reservedHrs reservedQuantity : ℚ) :
    Record :=
  { SKU := "7MYWT7Y96UT3NJ2D", OfferTermCode := "4NA7Y494T4", Region := "ap-northeast-1",
    InstanceType := "m4.large", UsageType := "APN1-BoxUsage:m4.large",
    LeaseContractLength := lease, PurchaseOption := purchase,
    OnDemand := 129 / 1000, ReservedHrs := reservedHrs, ReservedQuantity := reservedQuantity,
    Tenancy := "Shared", PreInstalled := "NA", OperatingSystem := "Linux", Engine := "",
    Operation := "RunInstances", OfferingClass := "standard", NormalizationSizeFactor := "4" }

/-- The record of `TestExpect` (`record_test.go`, lines 130-147): 1 year, All Upfront,
on-demand rate 0.129, upfront price 713. -/
def testRecord : Record := m4large .yr1 "All Upfront" 0 713

/-- The forecast of `TestExpect` (`record_test.go`, lines 162-169). -/
def testForecast : List Forecast :=
  [⟨"2018-06", 10⟩, ⟨"2018-07", 20⟩, ⟨"2018-08", 10⟩, ⟨"2018-09", 20⟩, ⟨"2018-10", 10⟩,
    ⟨"2018-11", 20⟩]

/-- An All Upfront offer whose upfront price (2000) exceeds the on-demand cost of the
whole term (0.129 * 8760 = 1130.04). -/
def overpriced : Record := m4large .yr1 "All Upfront" 0 2000

/-! ## Theorems -/

/-! ### pkg/reservation: Usage -/

theorem length_pos_iff_ne_empty (s : String) : s.length > 0 ↔ s ≠ "" := by
  rcases s with ⟨l⟩
  cases l <;> simp [String.length, String.ext_iff]

/-- C6 (amended). The method `Usage` panics with "invalid usage" exactly when
`Platform` and `CacheEngine` are empty and either `DatabaseEngine` is empty or
`DeploymentOption` is neither "Single-AZ" nor "Multi-AZ"; whenever it does not
panic it returns one of "BoxUsage", "NodeUsage", "InstanceUsage", "Multi-AZUsage". -/
theorem Usage_panics_iff (u : Utilization) :
    (u.Usage = .error "invalid usage" ↔
      u.Platform = "" ∧ u.CacheEngine = "" ∧
        (u.DatabaseEngine = "" ∨
          (u.DeploymentOption ≠ "Single-AZ" ∧ u.DeploymentOption ≠ "Multi-AZ"))) ∧
    (u.Usage ≠ .error "invalid usage" → ∃ s ∈ usageNames, u.Usage = .ok s) := by
  simp only [Utilization.Usage, length_pos_iff_ne_empty, usageNames]
  by_cases h1 : u.Platform = "" <;> by_cases h2 : u.CacheEngine = "" <;>
    by_cases h3 : u.DatabaseEngine = "" <;>
    by_cases h4 : u.DeploymentOption = "Single-AZ" <;>
    by_cases h5 : u.DeploymentOption = "Multi-AZ" <;>
    simp_all

/-- C6, counterexample. A record with the database engine "MySQL" and an empty
deployment option has one of the three engine fields populated, and `Usage` panics
on it: panicking is not equivalent to all three fields being empty. -/
theorem Usage_database_without_deployment :
    dbWithoutDeployment.DatabaseEngine ≠ "" ∧
    dbWithoutDeployment.Usage = .error "invalid usage" ∧
    ¬ (dbWithoutDeployment.Usage = .error "invalid usage" ↔
        dbWithoutDeployment.Platform = "" ∧ dbWithoutDeployment.CacheEngine = "" ∧
          dbWithoutDeployment.DatabaseEngine = "") := by
  refine ⟨by decide, rfl, ?_⟩
  intro h
  have h1 : dbWithoutDeployment.Usage = .error "invalid usage" := rfl
  exact absurd (h.mp h1).2.2 (by decide)

/-! ### pkg/reservation: the sorts of Fetch -/

theorem lexRel_total {α : Type} {r1 r2 : α → α → Prop}
    (t1 : ∀ a b, r1 a b ∨ r1 b a) (t2 : ∀ a b, r2 a b ∨ r2 b a) (a b : α) :
    lexRel r2 r1 a b ∨ lexRel r2 r1 b a := by
  unfold lexRel
  rcases t1 a b with h1 | h1 <;> rcases t2 a b with h2 | h2 <;>
    by_cases h3 : r2 a b <;> by_cases h4 : r2 b a <;> simp_all

theorem lexRel_trans {α : Type} {r1 r2 : α → α → Prop}
    (tr1 : ∀ a b c, r1 a b → r1 b c → r1 a c) (tr2 : ∀ a b c, r2 a b → r2 b c → r2 a c)
    (a b c : α) (hab : lexRel r2 r1 a b) (hbc : lexRel r2 r1 b c) : lexRel r2 r1 a c := by
  unfold lexRel at *
  refine ⟨tr2 _ _ _ hab.1 hbc.1, fun hca => ?_⟩
  have hba : r2 b a := tr2 _ _ _ hbc.1 hca
  have hcb : r2 c b := tr2 _ _ _ hca hab.1
  exact tr1 _ _ _ (hab.2 hba) (hbc.2 hcb)

theorem orderedInsert_congr_mem {α : Type} {r s : α → α → Prop} [DecidableRel r]
    [DecidableRel s]
    (a : α) (l : List α) (h : ∀ b ∈ l, (r a b ↔ s a b)) :
    l.orderedInsert r a = l.orderedInsert s a := by
  induction l with
  | nil => rfl
  | cons b l ih =>
    simp only [List.orderedInsert]
    have hb := h b (List.mem_cons_self _ _)
    by_cases hab : r a b
    · rw [if_pos hab, if_pos (hb.mp hab)]
    · rw [if_neg hab, if_neg (fun hs => hab (hb.mpr hs)),
        ih (fun c hc => h c (List.mem_cons_of_mem _ hc))]

theorem insertionSort_congr {α : Type} {r s : α → α → Prop} [DecidableRel r]
    [DecidableRel s]
    (h : ∀ a b, r a b ↔ s a b) (l : List α) :
    l.insertionSort r = l.insertionSort s := by
  induction l with
  | nil => rfl
  | cons b l ih =>
    simp only [List.insertionSort, ih]
    exact orderedInsert_congr_mem _ _ (fun c _ => h b c)

theorem orderedInsert_comm {α : Type} {r : α → α → Prop} [DecidableRel r]
    (tot : ∀ a b, r a b ∨ r b a) (tr : ∀ a b c, r a b → r b c → r a c)
    (a b : α) (hab : r a b) (hba : ¬ r b a) (l : List α) :
    (l.orderedInsert r a).orderedInsert r b = (l.orderedInsert r b).orderedInsert r a := by
  induction l with
  | nil => simp [List.orderedInsert, hab, hba]
  | cons t l ih =>
    by_cases hat : r a t <;> by_cases hbt : r b t
    · simp [List.orderedInsert, hat, hbt, hab, hba]
    · simp [List.orderedInsert, hat, hbt, hab, hba]
    · exfalso
      rcases tot a t with h | h
      · exact hat h
      · exact hba (tr _ _ _ hbt h)
    · simp [List.orderedInsert, hat, hbt, ih]

theorem insertionSort_orderedInsert {α : Type} {r1 r2 : α → α → Prop} [DecidableRel r1]
    [DecidableRel r2]
    (t1 : ∀ a b, r1 a b ∨ r1 b a) (tr1 : ∀ a b c, r1 a b → r1 b c → r1 a c)
    (t2 : ∀ a b, r2 a b ∨ r2 b a) (tr2 : ∀ a b c, r2 a b → r2 b c → r2 a c)
    (a : α) (s : List α) (hs : s.Sorted r1) :
    (s.orderedInsert r1 a).insertionSort r2
      = (s.insertionSort r2).orderedInsert (lexRel r2 r1) a := by
  induction s with
  | nil => rfl
  | cons b s ih =>
    have hb : ∀ c ∈ s, r1 b c := List.rel_of_sorted_cons hs
    have hs' : s.Sorted r1 := hs.of_cons
    by_cases hab : r1 a b
    · rw [List.orderedInsert, if_pos hab]
      rw [List.insertionSort]
      apply orderedInsert_congr_mem
      intro c hc
      rw [List.mem_insertionSort, List.mem_cons] at hc
      have hac : r1 a c := by
        rcases hc with rfl | hc
        · exact hab
        · exact tr1 _ _ _ hab (hb c hc)
      unfold lexRel
      exact ⟨fun h => ⟨h, fun _ => hac⟩, fun h => h.1⟩
    · have hba : r1 b a := (t1 a b).resolve_left hab
      rw [List.orderedInsert, if_neg hab, List.insertionSort, ih hs', List.insertionSort]
      have e1 : ((s.insertionSort r2).orderedInsert (lexRel r2 r1) a).orderedInsert r2 b
          = ((s.insertionSort r2).orderedInsert (lexRel r2 r1) a).orderedInsert
              (lexRel r2 r1) b := by
        apply orderedInsert_congr_mem
        intro c hc
        rw [List.mem_orderedInsert, List.mem_insertionSort] at hc
        have hbc : r1 b c := by
          rcases hc with rfl | hc
          · exact hba
          · exact hb c hc
        unfold lexRel
        exact ⟨fun h => ⟨h, fun _ => hbc⟩, fun h => h.1⟩
      have e2 : (s.insertionSort r2).orderedInsert r2 b
          = (s.insertionSort r2).orderedInsert (lexRel r2 r1) b := by
        apply orderedInsert_congr_mem
        intro c hc
        rw [List.mem_insertionSort] at hc
        unfold lexRel
        exact ⟨fun h => ⟨h, fun _ => hb c hc⟩, fun h => h.1⟩
      rw [e1, e2]
      have tot := lexRel_total t1 t2
      have tr := lexRel_trans tr1 tr2
      by_cases hl : lexRel r2 r1 a b
      · have hnba : ¬ lexRel r2 r1 b a := fun h => hab (hl.2 h.1)
        exact orderedInsert_comm tot tr a b hl hnba _
      · have hlba : lexRel r2 r1 b a := (tot a b).resolve_left hl
        exact (orderedInsert_comm tot tr b a hlba hl _).symm

theorem insertionSort_insertionSort {α : Type} {r1 r2 : α → α → Prop} [DecidableRel r1]
    [DecidableRel r2]
    (t1 : ∀ a b, r1 a b ∨ r1 b a) (tr1 : ∀ a b c, r1 a b → r1 b c → r1 a c)
    (t2 : ∀ a b, r2 a b ∨ r2 b a) (tr2 : ∀ a b c, r2 a b → r2 b c → r2 a c)
    (l : List α) :
    (l.insertionSort r1).insertionSort r2 = l.insertionSort (lexRel r2 r1) := by
  induction l with
  | nil => rfl
  | cons a l ih =>
    haveI : IsTotal α r1 := ⟨t1⟩
    haveI : IsTrans α r1 := ⟨tr1⟩
    rw [List.insertionSort, insertionSort_orderedInsert t1 tr1 t2 tr2 a _
      (List.sorted_insertionSort r1 l), ih, List.insertionSort]

theorem insertionSort_congr_inst {α : Type} {r s : α → α → Prop} (dr : DecidableRel r)
    (ds : DecidableRel s) (h : ∀ a b, r a b ↔ s a b) (l : List α) :
    @List.insertionSort α r dr l = @List.insertionSort α s ds l :=
  insertionSort_congr h l

theorem sorted_insertionSort_inst {α : Type} {r : α → α → Prop} (dr : DecidableRel r)
    (tot : ∀ a b, r a b ∨ r b a) (tr : ∀ a b c, r a b → r b c → r a c) (l : List α) :
    (@List.insertionSort α r dr l).Pairwise r :=
  @List.sorted_insertionSort α r dr ⟨tot⟩ ⟨tr⟩ l

theorem keyRel_total (f : Utilization → String) (a b : Utilization) :
    ¬ f b < f a ∨ ¬ f a < f b := by
  rcases le_total (f a) (f b) with h | h
  · exact Or.inl (not_lt_of_le h)
  · exact Or.inr (not_lt_of_le h)

theorem keyRel_trans (f : Utilization → String) (a b c : Utilization)
    (h1 : ¬ f b < f a) (h2 : ¬ f c < f b) : ¬ f c < f a :=
  not_lt_of_le (le_trans (le_of_not_lt h1) (le_of_not_lt h2))

theorem step_iff {r1 : Utilization → Utilization → Prop} {Q : Prop} (f : Utilization → String)
    (a b : Utilization) (h : r1 a b ↔ ¬ Q) :
    lexRel (fun a b : Utilization => ¬ f b < f a) r1 a b ↔ ¬ (f b < f a ∨ (f b = f a ∧ Q)) := by
  unfold lexRel
  rcases lt_trichotomy (f a) (f b) with hxy | hxy | hxy
  · have h1 : ¬ f b < f a := not_lt_of_lt hxy
    have h2 : f b ≠ f a := ne_of_gt hxy
    simp [h1, h2, hxy]
  · simp [hxy, h]
  · simp [hxy]

theorem fetchSort_eq_stable (l : List Utilization) :
    fetchSort l = sortSliceStable keyLess l := by
  unfold fetchSort sortSliceStable
  simp only
  have tD := keyRel_total (·.DeploymentOption)
  have rD := keyRel_trans (·.DeploymentOption)
  have tB := keyRel_total (·.DatabaseEngine)
  have rB := keyRel_trans (·.DatabaseEngine)
  have tC := keyRel_total (·.CacheEngine)
  have rC := keyRel_trans (·.CacheEngine)
  have tP := keyRel_total (·.Platform)
  have rP := keyRel_trans (·.Platform)
  have tR := keyRel_total (·.Region)
  have rR := keyRel_trans (·.Region)
  have tA := keyRel_total (·.AccountID)
  have rA := keyRel_trans (·.AccountID)
  rw [insertionSort_insertionSort tD rD tB rB]
  have t2 := lexRel_total tD tB
  have r2 := lexRel_trans rD rB
  rw [insertionSort_insertionSort t2 r2 tC rC]
  have t3 := lexRel_total t2 tC
  have r3 := lexRel_trans r2 rC
  rw [insertionSort_insertionSort t3 r3 tP rP]
  have t4 := lexRel_total t3 tP
  have r4 := lexRel_trans r3 rP
  rw [insertionSort_insertionSort t4 r4 tR rR]
  have t5 := lexRel_total t4 tR
  have r5 := lexRel_trans r4 rR
  rw [insertionSort_insertionSort t5 r5 tA rA]
  refine insertionSort_congr_inst _ _ ?_ l
  intro a b
  unfold keyLess
  refine step_iff (·.AccountID) a b ?_
  refine step_iff (·.Region) a b ?_
  refine step_iff (·.Platform) a b ?_
  refine step_iff (·.CacheEngine) a b ?_
  refine step_iff (·.DatabaseEngine) a b ?_
  exact Iff.rfl

theorem not_keyLess_self_key (a b : Utilization) (h : sortKey a = sortKey b) : ¬ keyLess b a := by
  simp only [sortKey, Prod.mk.injEq] at h
  obtain ⟨h1, h2, h3, h4, h5, h6⟩ := h
  unfold keyLess
  simp [h1, h2, h3, h4, h5, h6]

theorem sorted_sortSliceStable_keyLess (l : List Utilization) :
    (sortSliceStable keyLess l).Pairwise (fun a b => ¬ keyLess b a) := by
  rw [← fetchSort_eq_stable]
  unfold fetchSort sortSliceStable
  simp only
  have tD := keyRel_total (·.DeploymentOption)
  have rD := keyRel_trans (·.DeploymentOption)
  have tB := keyRel_total (·.DatabaseEngine)
  have rB := keyRel_trans (·.DatabaseEngine)
  have tC := keyRel_total (·.CacheEngine)
  have rC := keyRel_trans (·.CacheEngine)
  have tP := keyRel_total (·.Platform)
  have rP := keyRel_trans (·.Platform)
  have tR := keyRel_total (·.Region)
  have rR := keyRel_trans (·.Region)
  have tA := keyRel_total (·.AccountID)
  have rA := keyRel_trans (·.AccountID)
  rw [insertionSort_insertionSort tD rD tB rB]
  have t2 := lexRel_total tD tB
  have r2 := lexRel_trans rD rB
  rw [insertionSort_insertionSort t2 r2 tC rC]
  have t3 := lexRel_total t2 tC
  have r3 := lexRel_trans r2 rC
  rw [insertionSort_insertionSort t3 r3 tP rP]
  have t4 := lexRel_total t3 tP
  have r4 := lexRel_trans r3 rP
  rw [insertionSort_insertionSort t4 r4 tR rR]
  have t5 := lexRel_total t4 tR
  have r5 := lexRel_trans r4 rR
  rw [insertionSort_insertionSort t5 r5 tA rA]
  have t6 := lexRel_total t5 tA
  have r6 := lexRel_trans r5 rA
  refine List.Pairwise.imp ?_ (sorted_insertionSort_inst _ t6 r6 l)
  intro a b hab
  refine (step_iff (·.AccountID) a b ?_).mp hab
  refine step_iff (·.Region) a b ?_
  refine step_iff (·.Platform) a b ?_
  refine step_iff (·.CacheEngine) a b ?_
  refine step_iff (·.DatabaseEngine) a b ?_
  exact Iff.rfl

/-- C9. The list `Fetch` returns is the list it gathered, stably sorted once by the
composite key `(AccountID, Region, Platform, CacheEngine, DatabaseEngine,
DeploymentOption)`: the six successive stable sorts equal one stable sort by the
lexicographic order on that key; the result is a permutation of the gathered records,
is ordered lexicographically by the key, and for every key value the records that
carry it appear in the same relative order as they were gathered. -/
theorem fetchSort_stable_lexicographic (l : List Utilization) :
    fetchSort l = sortSliceStable keyLess l ∧
    (fetchSort l).Perm l ∧
    (fetchSort l).Pairwise (fun a b => ¬ keyLess b a) ∧
    (∀ u : Utilization, (fetchSort l).filter (fun v => sortKey v = sortKey u)
        = l.filter (fun v => sortKey v = sortKey u)) := by
  have hp : (sortSliceStable keyLess l).Perm l := List.perm_insertionSort _ l
  refine ⟨fetchSort_eq_stable l, ?_, ?_, ?_⟩
  · rw [fetchSort_eq_stable]; exact hp
  · rw [fetchSort_eq_stable]; exact sorted_sortSliceStable_keyLess l
  · intro u
    rw [fetchSort_eq_stable]
    have hc : (l.filter (fun v => sortKey v = sortKey u)).Pairwise (fun a b => ¬ keyLess b a) := by
      rw [List.pairwise_iff_forall_sublist]
      intro a b hab
      have ha := hab.subset (List.mem_cons_self a [b])
      have hb := hab.subset (List.mem_cons_of_mem a (List.mem_singleton_self b))
      simp only [List.mem_filter, decide_eq_true_eq] at ha hb
      exact not_keyLess_self_key a b (ha.2.trans hb.2.symm)
    have hsub := List.sublist_insertionSort hc (List.filter_sublist l)
    have hsub2 := hsub.filter (fun v => decide (sortKey v = sortKey u))
    rw [List.filter_filter] at hsub2
    simp only [Bool.and_self] at hsub2
    have hlen := (hp.filter (fun v => decide (sortKey v = sortKey u))).length_eq
    exact (hsub2.eq_of_length hlen.symm).symm

/-! ### calendar: the model of time.Time -/

theorem daysIn_pos (y : Int) (m : Nat) : 28 ≤ daysIn y m ∧ daysIn y m ≤ 31 := by
  unfold daysIn; split_ifs <;> omega

theorem nextDay_valid {t : Civil} (h : t.Valid) : (nextDay t).Valid := by
  obtain ⟨h1, h2, h3, h4⟩ := h
  unfold nextDay
  split_ifs with ha hb
  · exact ⟨h1, h2, by simp, by simp; omega⟩
  · have := (daysIn_pos t.year (t.month + 1)).1
    exact ⟨by simp, by simp; omega, by simp, by simp; omega⟩
  · exact ⟨by simp, by simp, by simp, by have := (daysIn_pos (t.year + 1) 1).1; simp; omega⟩

theorem prevDay_valid {t : Civil} (h : t.Valid) : (prevDay t).Valid := by
  obtain ⟨h1, h2, h3, h4⟩ := h
  unfold prevDay
  split_ifs with ha hb
  · exact ⟨h1, h2, by simp; omega, by simp; omega⟩
  · have := (daysIn_pos t.year (t.month - 1)).1
    exact ⟨by simp; omega, by simp; omega, by simp; omega, by simp⟩
  · refine ⟨by simp, by simp, by simp, ?_⟩
    simp [daysIn]

theorem prevDay_nextDay {t : Civil} (h : t.Valid) : prevDay (nextDay t) = t := by
  obtain ⟨h1, h2, h3, h4⟩ := h
  rcases t with ⟨y, m, d⟩
  simp only at h1 h2 h3 h4
  unfold nextDay
  split_ifs with ha hb
  · simp only at ha
    simp [prevDay]
    omega
  · simp only at ha hb
    have : d = daysIn y m := by omega
    subst this
    have hm : 1 < m + 1 := by omega
    simp [prevDay, hm]
  · simp only at ha hb
    have hm : m = 12 := by omega
    subst hm
    have : d = 31 := by
      have : daysIn y 12 = 31 := by simp [daysIn]
      omega
    simp [prevDay, this]

theorem nextDay_prevDay {t : Civil} (h : t.Valid) : nextDay (prevDay t) = t := by
  obtain ⟨h1, h2, h3, h4⟩ := h
  rcases t with ⟨y, m, d⟩
  simp only at h1 h2 h3 h4
  unfold prevDay
  split_ifs with ha hb
  · simp only at ha
    have : d - 1 < daysIn y m := by omega
    simp [nextDay, this]
    omega
  · simp only at ha hb
    have hd : d = 1 := by omega
    subst hd
    have : m - 1 < 12 := by omega
    simp [nextDay, this]
    omega
  · simp only at ha hb
    have hd : d = 1 := by omega
    have hm : m = 1 := by omega
    subst hd hm
    simp [nextDay, daysIn]

theorem iterate_nextDay_valid {t : Civil} (h : t.Valid) (k : ℕ) : (nextDay^[k] t).Valid := by
  induction k with
  | zero => exact h
  | succ k ih => rw [Function.iterate_succ_apply']; exact nextDay_valid ih

theorem iterate_prevDay_valid {t : Civil} (h : t.Valid) (k : ℕ) : (prevDay^[k] t).Valid := by
  induction k with
  | zero => exact h
  | succ k ih => rw [Function.iterate_succ_apply']; exact prevDay_valid ih

theorem addDays_valid {t : Civil} (h : t.Valid) (k : Int) : (addDays t k).Valid := by
  unfold addDays
  split_ifs
  · exact iterate_nextDay_valid h _
  · exact iterate_prevDay_valid h _

theorem addDays_zero (t : Civil) : addDays t 0 = t := by
  simp [addDays]

theorem addDays_succ {t : Civil} (h : t.Valid) (k : Int) :
    addDays t (k + 1) = nextDay (addDays t k) := by
  unfold addDays
  by_cases hk : 0 ≤ k
  · have h1 : 0 ≤ k + 1 := by omega
    have h2 : (k + 1).toNat = k.toNat + 1 := by omega
    rw [if_pos hk, if_pos h1, h2, Function.iterate_succ_apply']
  · rw [if_neg hk]
    by_cases hk1 : 0 ≤ k + 1
    · have hk0 : k = -1 := by omega
      subst hk0
      simp only [Int.reduceNeg, neg_add_cancel, le_refl, ↓reduceIte, Int.toNat_zero,
        Function.iterate_zero, id_eq, neg_neg, Int.toNat_one, Function.iterate_one]
      exact (nextDay_prevDay h).symm
    · rw [if_neg hk1]
      have h2 : (-k).toNat = (-(k + 1)).toNat + 1 := by omega
      rw [h2, Function.iterate_succ_apply', nextDay_prevDay (iterate_prevDay_valid h _)]

theorem addDays_pred {t : Civil} (h : t.Valid) (k : Int) :
    addDays t (k - 1) = prevDay (addDays t k) := by
  have h1 := addDays_succ h (k - 1)
  rw [sub_add_cancel] at h1
  rw [h1, prevDay_nextDay (addDays_valid h _)]

theorem addDays_add {t : Civil} (h : t.Valid) (a b : Int) :
    addDays (addDays t a) b = addDays t (a + b) := by
  induction b using Int.induction_on with
  | hz => simp [addDays_zero]
  | hp i ih =>
    rw [addDays_succ (addDays_valid h a), ih, ← add_assoc, addDays_succ h]
  | hn i ih =>
    rw [addDays_pred (addDays_valid h a), ih, ← add_sub_assoc, addDays_pred h]

theorem key_nextDay {t : Civil} (h : t.Valid) : t.key < (nextDay t).key := by
  obtain ⟨h1, h2, h3, h4⟩ := h
  have := daysIn_pos t.year t.month
  unfold nextDay Civil.key
  split_ifs <;> simp <;> omega

theorem key_addDays_lt {t : Civil} (h : t.Valid) {a b : Int} (hab : a < b) :
    (addDays t a).key < (addDays t b).key := by
  obtain ⟨k, rfl⟩ : ∃ k : ℕ, b = a + 1 + k := ⟨(b - a - 1).toNat, by omega⟩
  clear hab
  induction k with
  | zero =>
    simp only [Nat.cast_zero, add_zero]
    rw [addDays_succ h]
    exact key_nextDay (addDays_valid h a)
  | succ k ih =>
    have : a + 1 + ((k + 1 : ℕ) : Int) = (a + 1 + k) + 1 := by push_cast; ring
    rw [this, addDays_succ h]
    exact lt_trans ih (key_nextDay (addDays_valid h _))

theorem year_le_of_key_le {s t : Civil} (hs : s.Valid) (ht : t.Valid) (h : s.key ≤ t.key) :
    s.year ≤ t.year := by
  obtain ⟨a1, a2, a3, a4⟩ := hs
  obtain ⟨b1, b2, b3, b4⟩ := ht
  have := daysIn_pos s.year s.month
  have := daysIn_pos t.year t.month
  unfold Civil.key at h
  omega

theorem addDays_firstOfMonth {t : Civil} (h : t.Valid) :
    addDays { t with day := 1 } ((t.day : Int) - 1) = t := by
  obtain ⟨h1, h2, h3, h4⟩ := h
  rcases t with ⟨y, m, d⟩
  simp only at *
  have hk : 0 ≤ (d : Int) - 1 := by omega
  unfold addDays
  rw [if_pos hk]
  have : ∀ j : ℕ, j + 1 ≤ daysIn y m → nextDay^[j] ⟨y, m, 1⟩ = ⟨y, m, j + 1⟩ := by
    intro j
    induction j with
    | zero => intro _; rfl
    | succ j ih =>
      intro hj
      rw [Function.iterate_succ_apply', ih (by omega)]
      have : j + 1 < daysIn y m := by omega
      simp [nextDay, this]
  have e : ((d : Int) - 1).toNat = d - 1 := by omega
  rw [e, this (d - 1) (by omega)]
  congr 1
  omega

/-! ### calendar: instants, locations and `time.Date` -/

theorem shift_zero {i : Instant} (h0 : 0 ≤ i.sec) (h1 : i.sec < 86400) : i.shift 0 = i := by
  rcases i with ⟨d, s⟩
  simp only at h0 h1
  have e1 : (s + 0) / 86400 = 0 := by omega
  have e2 : (s + 0) % 86400 = s := by omega
  simp only [Instant.shift, e1, e2, addDays_zero]

theorem shift_shift {i : Instant} (h : i.date.Valid) (a b : Int) :
    (i.shift a).shift b = i.shift (a + b) := by
  rcases i with ⟨d, s⟩
  simp only [Instant.shift]
  rw [addDays_add h]
  have e1 : (s + a) / 86400 + ((s + a) % 86400 + b) / 86400 = (s + (a + b)) / 86400 := by omega
  have e2 : ((s + a) % 86400 + b) % 86400 = (s + (a + b)) % 86400 := by omega
  rw [e1, e2]

theorem shift_valid {i : Instant} (h : i.date.Valid) (a : Int) :
    (i.shift a).date.Valid ∧ 0 ≤ (i.shift a).sec ∧ (i.shift a).sec < 86400 := by
  refine ⟨addDays_valid h _, ?_, ?_⟩ <;> simp only [Instant.shift] <;> omega

theorem shift_clock (c : Civil) {s : Int} (h0 : 0 ≤ s) (h1 : s < 86400) :
    Instant.shift { date := c, sec := 0 } s = { date := c, sec := s } := by
  have e1 : (0 + s) / 86400 = 0 := by omega
  have e2 : (0 + s) % 86400 = s := by omega
  simp only [Instant.shift, e1, e2, addDays_zero]

theorem lookup_fixed {l : Location} (h : l.tx = []) (u : Instant) :
    l.lookup u = (l.offset0, none, none) := by
  simp [Location.lookup, h, lookupFrom]

theorem civilDate_valid (y m d : Int) : (civilDate y m d).Valid := by
  unfold civilDate
  apply addDays_valid
  refine ⟨?_, ?_, le_refl _, ?_⟩
  · simp
  · simp only; omega
  · have := daysIn_pos (y + (m - 1) / 12) (((m - 1) % 12).toNat + 1)
    simp only; omega

/-- In a location without transitions `time.Date` returns the time whose wall clock
reading is the one asked for. -/
theorem timeDate_fixed (y m d : Int) {c : Int} {l : Location} (h : l.tx = [])
    (h0 : 0 ≤ c) (h1 : c < 86400) :
    (timeDate y m d c l).loc = l ∧ (timeDate y m d c l).Valid ∧
    (timeDate y m d c l).abs = { date := civilDate y m d, sec := c } := by
  have hv := civilDate_valid y m d
  unfold timeDate
  simp only [shift_clock _ h0 h1, lookup_fixed h]
  by_cases ho : l.offset0 = 0
  · simp only [ho, ne_eq, not_true_eq_false, if_false, Time.abs, lookup_fixed h]
    refine ⟨trivial, ⟨hv, h0, h1⟩, ?_⟩
    exact shift_zero h0 h1
  · simp only [ne_eq, ho, not_false_eq_true, if_true, Bool.false_eq_true, or_self, if_false,
      Time.abs, lookup_fixed h]
    refine ⟨trivial, shift_valid hv _, ?_⟩
    rw [shift_shift hv, neg_add_cancel]
    exact shift_zero h0 h1

theorem abs_valid {t : Time} (hv : t.Valid) :
    t.Date.Valid ∧ 0 ≤ t.Clock ∧ t.Clock < 86400 :=
  shift_valid hv.1 _

/-- In a location without transitions `AddDate` keeps the location and the clock and
moves the calendar date as `time.Date` normalises it. -/
theorem AddDate_fixed {t : Time} (hv : t.Valid) (h : t.loc.tx = []) (y m d : Int) :
    (t.AddDate y m d).Valid ∧ (t.AddDate y m d).loc.tx = [] ∧
    (t.AddDate y m d).Date =
      civilDate (t.Date.year + y) ((t.Date.month : Int) + m) ((t.Date.day : Int) + d) := by
  obtain ⟨_, c0, c1⟩ := abs_valid hv
  obtain ⟨e1, e2, e3⟩ := timeDate_fixed (t.Date.year + y) ((t.Date.month : Int) + m)
    ((t.Date.day : Int) + d) h c0 c1
  unfold Time.AddDate
  refine ⟨e2, by rw [e1]; exact h, ?_⟩
  exact congrArg Instant.date e3

theorem civilDate_days {t : Civil} (h : t.Valid) (d : Int) :
    civilDate (t.year + 0) ((t.month : Int) + 0) ((t.day : Int) + d) = addDays t d := by
  obtain ⟨h1, h2, h3, h4⟩ := h
  unfold civilDate
  have e1 : ((t.month : Int) - 1) / 12 = 0 := by omega
  have e2 : (((t.month : Int) - 1) % 12).toNat + 1 = t.month := by omega
  simp only [add_zero, e1, e2]
  have hv : t.Valid := ⟨h1, h2, h3, h4⟩
  have e3 : (t.day : Int) + d - 1 = ((t.day : Int) - 1) + d := by ring
  rw [e3]
  have hf : ({ year := t.year, month := t.month, day := 1 } : Civil).Valid := by
    have := daysIn_pos t.year t.month
    exact ⟨h1, h2, le_refl _, by simp; omega⟩
  rw [← addDays_add hf]
  have := addDays_firstOfMonth hv
  simp only at this
  rw [this]

theorem AddDate_days {t : Time} (hv : t.Valid) (h : t.loc.tx = []) (d : Int) :
    (t.AddDate 0 0 d).Valid ∧ (t.AddDate 0 0 d).loc.tx = [] ∧
    (t.AddDate 0 0 d).Date = addDays t.Date d := by
  obtain ⟨e1, e2, e3⟩ := AddDate_fixed hv h 0 0 d
  exact ⟨e1, e2, e3.trans (civilDate_days (abs_valid hv).1 d)⟩

theorem decDigits_lt10 (f u : ℕ) (h : u < 10) : decDigits (f + 1) u = [dg u] := by
  have : u / 10 = 0 := by omega
  have e : u % 10 = u := by omega
  simp [decDigits, this, dg, e]

theorem decDigits_step (f u : ℕ) (h : 10 ≤ u) :
    decDigits (f + 1) u = decDigits f (u / 10) ++ [dg u] := by
  have : u / 10 ≠ 0 := by omega
  simp [decDigits, this, dg]

theorem dg_zero (n : ℕ) (h : n % 10 = 0) : dg n = '0' := by
  simp [dg, h, digitChar]

theorem appendInt_nat4 (u : ℕ) (h : u ≤ 9999) :
    appendInt (u : Int) 4 = [dg (u / 1000), dg (u / 100), dg (u / 10), dg u] := by
  have hneg : ¬ ((u : Int) < 0) := by omega
  simp only [appendInt, Int.natAbs_ofNat, hneg, if_false, List.nil_append]
  by_cases h1 : u < 10
  · rw [decDigits_lt10 _ _ h1]
    simp [List.replicate, dg_zero (u / 1000) (by omega), dg_zero (u / 100) (by omega),
      dg_zero (u / 10) (by omega)]
  · by_cases h2 : u < 100
    · rw [decDigits_step _ _ (by omega), decDigits_lt10 _ _ (by omega)]
      simp [List.replicate, dg_zero (u / 1000) (by omega), dg_zero (u / 100) (by omega)]
    · by_cases h3 : u < 1000
      · rw [decDigits_step _ _ (by omega), decDigits_step _ _ (by omega),
          decDigits_lt10 _ _ (by omega)]
        simp [List.replicate, dg_zero (u / 1000) (by omega), Nat.div_div_eq_div_mul]
      · rw [decDigits_step _ _ (by omega), decDigits_step _ _ (by omega),
          decDigits_step _ _ (by omega), decDigits_lt10 _ _ (by omega)]
        simp [List.replicate, Nat.div_div_eq_div_mul]

theorem appendInt_nat2 (u : ℕ) (h : u ≤ 99) :
    appendInt (u : Int) 2 = [dg (u / 10), dg u] := by
  have hneg : ¬ ((u : Int) < 0) := by omega
  simp only [appendInt, Int.natAbs_ofNat, hneg, if_false, List.nil_append]
  by_cases h1 : u < 10
  · rw [decDigits_lt10 _ _ h1]
    simp [List.replicate, dg_zero (u / 10) (by omega)]
  · rw [decDigits_step _ _ (by omega), decDigits_lt10 _ _ (by omega)]
    simp [List.replicate]

theorem dg_lt_iff (a b : ℕ) : dg a < dg b ↔ a % 10 < b % 10 := by
  have ha := Nat.mod_lt a (show 10 > 0 by norm_num)
  have hb := Nat.mod_lt b (show 10 > 0 by norm_num)
  unfold dg
  generalize a % 10 = x at *
  generalize b % 10 = y at *
  interval_cases x <;> interval_cases y <;> decide

theorem dg_eq_iff (a b : ℕ) : dg a = dg b ↔ a % 10 = b % 10 := by
  have ha := Nat.mod_lt a (show 10 > 0 by norm_num)
  have hb := Nat.mod_lt b (show 10 > 0 by norm_num)
  unfold dg
  generalize a % 10 = x at *
  generalize b % 10 = y at *
  interval_cases x <;> interval_cases y <;> decide

theorem dash_not_lt : ¬ ('-' : Char) < '-' := by decide

theorem lex_cons_cons (a b : Char) (l1 l2 : List Char) :
    List.Lex (· < ·) (a :: l1) (b :: l2) ↔ a < b ∨ (a = b ∧ List.Lex (· < ·) l1 l2) := by
  constructor
  · intro h
    cases h with
    | cons h => exact Or.inr ⟨rfl, h⟩
    | rel h => exact Or.inl h
  · rintro (h | ⟨rfl, h⟩)
    · exact List.Lex.rel h
    · exact List.Lex.cons h

theorem Format_ymd_toList {t : Civil} (hv : t.Valid) (h0 : 0 ≤ t.year) (h1 : t.year ≤ 9999) :
    (t.Format "2006-01-02").toList =
      [dg (t.year.toNat / 1000), dg (t.year.toNat / 100), dg (t.year.toNat / 10), dg t.year.toNat,
        '-', dg (t.month / 10), dg t.month, '-', dg (t.day / 10), dg t.day] := by
  obtain ⟨a1, a2, a3, a4⟩ := hv
  have := daysIn_pos t.year t.month
  obtain ⟨u, hu⟩ : ∃ u : ℕ, t.year = u := ⟨t.year.toNat, by omega⟩
  have hy := appendInt_nat4 u (by omega)
  have hm := appendInt_nat2 t.month (by omega)
  have hd := appendInt_nat2 t.day (by omega)
  simp only [Civil.Format, if_true, hu, hy, hm, hd, Int.toNat_ofNat, String.toList]
  rfl

theorem Format_ym_append {t : Civil} (hd : t.day = 1) :
    t.Format "2006-01" ++ "-01" = t.Format "2006-01-02" := by
  have e : appendInt ((1 : ℕ) : Int) 2 = ['0', '1'] := by decide
  have hne : ¬ ("2006-01" = "2006-01-02") := by decide
  simp only [Civil.Format, if_true, hne, if_false, hd, e]
  apply String.ext
  simp [String.append]

theorem digits4 (u : ℕ) (h : u ≤ 9999) :
    u = 1000 * (u / 1000 % 10) + 100 * (u / 100 % 10) + 10 * (u / 10 % 10) + u % 10 := by
  have e1 : u / 100 = u / 10 / 10 := by rw [Nat.div_div_eq_div_mul]
  have e2 : u / 1000 = u / 10 / 10 / 10 := by rw [Nat.div_div_eq_div_mul, Nat.div_div_eq_div_mul]
  rw [e1, e2]
  omega

theorem digits2 (u : ℕ) (h : u ≤ 99) : u = 10 * (u / 10 % 10) + u % 10 := by
  omega

theorem lex_digits (a3 a2 a1 a0 m1 m0 d1 d0 b3 b2 b1 b0 n1 n0 e1 e0 : ℕ)
    (ha2 : a2 < 10) (ha1 : a1 < 10) (ha0 : a0 < 10)
    (hm1 : m1 < 10) (hm0 : m0 < 10) (hd1 : d1 < 10) (hd0 : d0 < 10)
    (hb2 : b2 < 10) (hb1 : b1 < 10) (hb0 : b0 < 10)
    (hn1 : n1 < 10) (hn0 : n0 < 10) (he1 : e1 < 10) (he0 : e0 < 10) :
    (a3 < b3 ∨ a3 = b3 ∧ (a2 < b2 ∨ a2 = b2 ∧ (a1 < b1 ∨ a1 = b1 ∧ (a0 < b0 ∨ a0 = b0 ∧
      (m1 < n1 ∨ m1 = n1 ∧ (m0 < n0 ∨ m0 = n0 ∧ (d1 < e1 ∨ d1 = e1 ∧ d0 < e0))))))) ↔
    ((1000 * a3 + 100 * a2 + 10 * a1 + a0 : ℕ) : Int) * 10000 + ((10 * m1 + m0 : ℕ) : Int) * 100
        + ((10 * d1 + d0 : ℕ) : Int)
      < ((1000 * b3 + 100 * b2 + 10 * b1 + b0 : ℕ) : Int) * 10000
        + ((10 * n1 + n0 : ℕ) : Int) * 100 + ((10 * e1 + e0 : ℕ) : Int) := by
  omega

theorem Format_lt_iff {s t : Civil} (hs : s.Valid) (ht : t.Valid)
    (hs0 : 0 ≤ s.year) (hs1 : s.year ≤ 9999) (ht0 : 0 ≤ t.year) (ht1 : t.year ≤ 9999) :
    s.Format "2006-01-02" < t.Format "2006-01-02" ↔ s.key < t.key := by
  rw [String.lt_iff_toList_lt, Format_ymd_toList hs hs0 hs1, Format_ymd_toList ht ht0 ht1]
  show List.Lex (· < ·) _ _ ↔ _
  obtain ⟨a1, a2, a3, a4⟩ := hs
  obtain ⟨b1, b2, b3, b4⟩ := ht
  have := daysIn_pos s.year s.month
  have := daysIn_pos t.year t.month
  simp only [lex_cons_cons, dg_lt_iff, dg_eq_iff, dash_not_lt, false_or, true_and,
    List.Lex.not_nil_right, and_false, or_false]
  unfold Civil.key
  obtain ⟨u, hu⟩ : ∃ u : ℕ, s.year = u := ⟨s.year.toNat, by omega⟩
  obtain ⟨v, hv⟩ : ∃ v : ℕ, t.year = v := ⟨t.year.toNat, by omega⟩
  have hub : u ≤ 9999 := by omega
  have hvb : v ≤ 9999 := by omega
  rw [hu, hv]
  simp only [Int.toNat_ofNat]
  have k1 := digits4 u hub
  have k2 := digits4 v hvb
  have k3 := digits2 s.month (by omega)
  have k4 := digits2 t.month (by omega)
  have k5 := digits2 s.day (by omega)
  have k6 := digits2 t.day (by omega)
  have key := lex_digits (u / 1000 % 10) (u / 100 % 10) (u / 10 % 10) (u % 10)
    (s.month / 10 % 10) (s.month % 10) (s.day / 10 % 10) (s.day % 10)
    (v / 1000 % 10) (v / 100 % 10) (v / 10 % 10) (v % 10)
    (t.month / 10 % 10) (t.month % 10) (t.day / 10 % 10) (t.day % 10)
    (Nat.mod_lt _ (by norm_num)) (Nat.mod_lt _ (by norm_num)) (Nat.mod_lt _ (by norm_num))
    (Nat.mod_lt _ (by norm_num)) (Nat.mod_lt _ (by norm_num)) (Nat.mod_lt _ (by norm_num))
    (Nat.mod_lt _ (by norm_num)) (Nat.mod_lt _ (by norm_num)) (Nat.mod_lt _ (by norm_num))
    (Nat.mod_lt _ (by norm_num)) (Nat.mod_lt _ (by norm_num)) (Nat.mod_lt _ (by norm_num))
    (Nat.mod_lt _ (by norm_num)) (Nat.mod_lt _ (by norm_num))
  rw [← k1, ← k2, ← k3, ← k4, ← k5, ← k6] at key
  exact key

theorem key_addDays_le {t : Civil} (h : t.Valid) {a b : Int} (hab : a ≤ b) :
    (addDays t a).key + (b - a) ≤ (addDays t b).key := by
  obtain ⟨k, rfl⟩ : ∃ k : ℕ, b = a + k := ⟨(b - a).toNat, by omega⟩
  clear hab
  induction k with
  | zero => simp
  | succ k ih =>
    have e : a + ((k + 1 : ℕ) : Int) = (a + k) + 1 := by push_cast; ring
    rw [e, addDays_succ h]
    have := key_nextDay (addDays_valid h (a + k))
    omega

theorem key_bounds {t : Civil} (h : t.Valid) :
    t.year * 10000 + 101 ≤ t.key ∧ t.key ≤ t.year * 10000 + 1231 := by
  obtain ⟨a1, a2, a3, a4⟩ := h
  have := daysIn_pos t.year t.month
  unfold Civil.key
  omega

theorem wrapInt_small (x : Int) (h0 : 0 ≤ x) (h1 : x ≤ 1000000000) : wrapInt x = x := by
  unfold wrapInt
  omega

theorem reverse_map_range {α : Type} (f : ℕ → α) (N : ℕ) :
    ((List.range N).map f).reverse = (List.range N).map (fun k => f (N - 1 - k)) := by
  apply List.ext_getElem
  · simp
  · intro i h1 h2
    simp only [List.length_reverse, List.length_map, List.length_range] at h1
    simp [List.getElem_reverse]

theorem key_addDays_mono {t : Civil} (h : t.Valid) {a b : Int} (hab : a ≤ b) :
    (addDays t a).key ≤ (addDays t b).key := by
  have := key_addDays_le h hab
  omega

theorem year_range_between {today : Civil} (hv : today.Valid) {n : Int} (k : Int)
    (h0 : 0 ≤ (addDays today (-n)).year) (h1 : (addDays today (-1)).year ≤ 9999)
    (hk0 : -n ≤ k) (hk1 : k ≤ -1) :
    0 ≤ (addDays today k).year ∧ (addDays today k).year ≤ 9999 := by
  have a := year_le_of_key_le (addDays_valid hv _) (addDays_valid hv _) (key_addDays_mono hv hk0)
  have b := year_le_of_key_le (addDays_valid hv _) (addDays_valid hv _) (key_addDays_mono hv hk1)
  omega

theorem dailyWindow_sorted {today : Civil} (hv : today.Valid) {n : Int}
    (h0 : 0 ≤ (addDays today (-n)).year) (h1 : (addDays today (-1)).year ≤ 9999) :
    ((List.range n.toNat).map (fun k : ℕ => dailyWindow today ((k : Int) - n))).Pairwise
      (fun a b => a.Start < b.Start) := by
  rw [List.pairwise_map]
  refine (List.pairwise_lt_range n.toNat).imp_of_mem ?_
  intro a b ha hb hab
  simp only [List.mem_range] at ha hb
  have ra := year_range_between hv ((a : Int) - n) h0 h1 (by omega) (by omega)
  have rb := year_range_between hv ((b : Int) - n) h0 h1 (by omega) (by omega)
  show (addDays today _).Format "2006-01-02" < (addDays today _).Format "2006-01-02"
  rw [Format_lt_iff (addDays_valid hv _) (addDays_valid hv _) ra.1 ra.2 rb.1 rb.2]
  exact key_addDays_lt hv (by omega)

theorem sortSlice_of_sorted {l : List Date} (h : l.Pairwise (fun a b => a.Start < b.Start)) :
    sortSlice (fun a b : Date => a.Start < b.Start) l = l := by
  unfold sortSlice
  apply List.Sorted.insertionSort_eq
  exact h.imp (fun hab => not_lt_of_lt hab)

theorem LastNDaysWith_eq {now : Time} (hv : now.Valid) (hl : now.loc.tx = []) {n : Int}
    (hn : 1 ≤ n)
    (h0 : 0 ≤ (addDays now.Date (-n)).year) (h1 : (addDays now.Date (-1)).year ≤ 9999) :
    LastNDaysWith now n
      = (List.range n.toNat).map (fun k : ℕ => dailyWindow now.Date ((k : Int) - n)) := by
  have hd : now.Date.Valid := (abs_valid hv).1
  have hnb : n ≤ 100000000 := by
    have a := key_addDays_le hd (show -n ≤ -1 by omega)
    have b := (key_bounds (addDays_valid hd (-n))).1
    have c := (key_bounds (addDays_valid hd (-1))).2
    omega
  have hw : wrapInt (n + 1) = n + 1 := wrapInt_small _ (by omega) (by omega)
  have hN : (n + 1 - 1).toNat = n.toNat := by simp
  unfold LastNDaysWith
  simp only [hw, hN, List.map_map]
  have e1 : (List.range n.toNat).map
      ((fun d : Time =>
          Date.mk daily (d.Format "2006-01-02") ((d.AddDate 0 0 1).Format "2006-01-02")) ∘
        (fun j : ℕ => now.AddDate 0 0 (-((j : Int) + 1))))
      = (List.range n.toNat).map (fun j : ℕ => dailyWindow now.Date (-((j : Int) + 1))) := by
    apply List.map_congr_left
    intro j _
    obtain ⟨a1, a2, a3⟩ := AddDate_days hv hl (-((j : Int) + 1))
    obtain ⟨_, _, b3⟩ := AddDate_days a1 a2 1
    simp only [Function.comp, dailyWindow, Time.Format]
    rw [b3, a3, addDays_add hd]
  rw [e1, reverse_map_range]
  have e2 : (List.range n.toNat).map
      (fun k : ℕ => dailyWindow now.Date (-(((n.toNat - 1 - k : ℕ) : Int) + 1)))
      = (List.range n.toNat).map (fun k : ℕ => dailyWindow now.Date ((k : Int) - n)) := by
    apply List.map_congr_left
    intro k hk
    simp only [List.mem_range] at hk
    congr 1
    omega
  rw [e2]
  exact sortSlice_of_sorted (dailyWindow_sorted hd h0 h1)

theorem monthStart_valid (today : Civil) (k : Int) : (monthStart today k).Valid := by
  refine ⟨?_, ?_, ?_, ?_⟩
  · simp [monthStart]
  · simp only [monthStart]; omega
  · simp [monthStart]
  · have := (daysIn_pos (monthStart today k).year (monthStart today k).month).1
    simp only [monthStart] at *
    omega

theorem monthStart_key_lt (today : Civil) {a b : Int} (h : a < b) :
    (monthStart today a).key < (monthStart today b).key := by
  simp only [monthStart, Civil.key]
  push_cast
  omega

theorem monthStart_year_mono (today : Civil) {a b : Int} (h : a ≤ b) :
    (monthStart today a).year ≤ (monthStart today b).year := by
  simp only [monthStart]
  omega

theorem civilDate_months {t : Civil} (hv : t.Valid) (i : Int) :
    civilDate (t.year + 0) ((t.month : Int) + -i) ((t.day : Int) + (-(t.day : Int) + 1))
      = monthStart t (-i) := by
  obtain ⟨h1, h2, h3, h4⟩ := hv
  unfold civilDate monthStart
  have e : (t.day : Int) + (-(t.day : Int) + 1) - 1 = 0 := by ring
  simp only [e, addDays_zero, add_zero]
  congr 1
  · omega
  · omega

theorem civilDate_nextMonth (t : Civil) (k : Int) :
    civilDate ((monthStart t k).year + 0) (((monthStart t k).month : Int) + 1)
      (((monthStart t k).day : Int) + 0) = monthStart t (k + 1) := by
  unfold civilDate
  simp only [monthStart, add_zero, Nat.cast_one, sub_self, addDays_zero]
  congr 1
  · omega
  · omega

theorem AddDate_months {now : Time} (hv : now.Valid) (hl : now.loc.tx = []) (i : Int) :
    (now.AddDate 0 (-i) (-now.Day + 1)).Date = monthStart now.Date (-i) ∧
    ((now.AddDate 0 (-i) (-now.Day + 1)).AddDate 0 1 0).Date = monthStart now.Date (-i + 1) := by
  obtain ⟨a1, a2, a3⟩ := AddDate_fixed hv hl 0 (-i) (-now.Day + 1)
  have a4 := a3.trans (civilDate_months (abs_valid hv).1 i)
  obtain ⟨_, _, b3⟩ := AddDate_fixed a1 a2 0 1 0
  refine ⟨a4, ?_⟩
  rw [b3, a4]
  exact civilDate_nextMonth now.Date (-i)

theorem monthlyWindow_sorted (today : Civil) {n : Int}
    (h0 : 0 ≤ (monthStart today (-n)).year) (h1 : (monthStart today (-1)).year ≤ 9999) :
    ((List.range n.toNat).map (fun k : ℕ => monthlyWindow today ((k : Int) - n))).Pairwise
      (fun a b => a.Start < b.Start) := by
  rw [List.pairwise_map]
  refine (List.pairwise_lt_range n.toNat).imp_of_mem ?_
  intro a b ha hb hab
  simp only [List.mem_range] at ha hb
  have a0 := monthStart_year_mono today (show -n ≤ (a : Int) - n by omega)
  have a1 := monthStart_year_mono today (show (a : Int) - n ≤ -1 by omega)
  have b0 := monthStart_year_mono today (show -n ≤ (b : Int) - n by omega)
  have b1 := monthStart_year_mono today (show (b : Int) - n ≤ -1 by omega)
  show (monthStart today _).Format "2006-01-02" < (monthStart today _).Format "2006-01-02"
  rw [Format_lt_iff (monthStart_valid today _) (monthStart_valid today _) (by omega) (by omega)
    (by omega) (by omega)]
  exact monthStart_key_lt today (by omega)

theorem LastNMonthsWith_eq {now : Time} (hv : now.Valid) (hl : now.loc.tx = []) {n : Int}
    (hn : 1 ≤ n) (hn2 : n ≤ 12)
    (h0 : 0 ≤ (monthStart now.Date (-n)).year) (h1 : (monthStart now.Date (-1)).year ≤ 9999) :
    LastNMonthsWith now n
      = some ((List.range n.toNat).map (fun k : ℕ => monthlyWindow now.Date ((k : Int) - n))) := by
  have hw : wrapInt (n + 1) = n + 1 := wrapInt_small _ (by omega) (by omega)
  have hN : (n + 1 - 1).toNat = n.toNat := by simp
  have hc : ¬ (n < 1 ∨ n > 12) := by omega
  unfold LastNMonthsWith
  simp only [hc, if_false, hw, hN, List.map_map, Option.some.injEq]
  have e1 : (List.range n.toNat).map
      ((fun m : Time =>
          Date.mk monthly (m.Format "2006-01" ++ "-01")
            ((m.AddDate 0 1 0).Format "2006-01" ++ "-01")) ∘
        (fun j : ℕ => now.AddDate 0 (-((j : Int) + 1)) (-now.Day + 1)))
      = (List.range n.toNat).map (fun j : ℕ => monthlyWindow now.Date (-((j : Int) + 1))) := by
    apply List.map_congr_left
    intro j _
    obtain ⟨a, b⟩ := AddDate_months hv hl ((j : Int) + 1)
    simp only [Function.comp, monthlyWindow, Time.Format]
    rw [a, b, Format_ym_append (by simp [monthStart]), Format_ym_append (by simp [monthStart])]
  rw [e1, reverse_map_range]
  have e2 : (List.range n.toNat).map
      (fun k : ℕ => monthlyWindow now.Date (-(((n.toNat - 1 - k : ℕ) : Int) + 1)))
      = (List.range n.toNat).map (fun k : ℕ => monthlyWindow now.Date ((k : Int) - n)) := by
    apply List.map_congr_left
    intro k hk
    simp only [List.mem_range] at hk
    congr 1
    omega
  rw [e2]
  exact sortSlice_of_sorted (monthlyWindow_sorted now.Date h0 h1)

theorem LastNMonthsWith_panics (now : Time) (n : Int) (h : n < 1 ∨ 12 < n) :
    LastNMonthsWith now n = none := by
  unfold LastNMonthsWith
  have : n < 1 ∨ n > 12 := h
  simp only [this, if_true]

theorem sortSlice_Start (l : List Date) :
    sortSlice (fun a b : Date => a.Start < b.Start) l
      = l.insertionSort (fun a b => ¬ List.Lex (· < ·) b.Start.toList a.Start.toList) := by
  unfold sortSlice
  apply insertionSort_congr
  intro a b
  show ¬ b.Start < a.Start ↔ _
  rw [String.lt_iff_toList_lt]
  rfl

theorem windows_getElem? {W : Int → Date} (n : Int) (k : ℕ) (hk : (k : Int) < n) :
    ((List.range n.toNat).map (fun j : ℕ => W ((j : Int) - n)))[k]?
      = some (W ((k : Int) - n)) := by
  have : k < n.toNat := by omega
  simp [List.getElem?_range, this]

theorem windows_getElem?_some {W : Int → Date} (n : Int) (k : ℕ) (a : Date)
    (h : ((List.range n.toNat).map (fun j : ℕ => W ((j : Int) - n)))[k]? = some a) :
    (k : Int) < n ∧ a = W ((k : Int) - n) := by
  by_cases hk : k < n.toNat
  · simp [List.getElem?_range, hk] at h
    exact ⟨by omega, h.symm⟩
  · have : ((List.range n.toNat).map (fun j : ℕ => W ((j : Int) - n)))[k]? = none := by
      rw [List.getElem?_eq_none_iff]
      simp
      omega
    rw [this] at h
    exact absurd h (by simp)

theorem windows_getLast? {W : Int → Date} (n : Int) (hn : 1 ≤ n) :
    ((List.range n.toNat).map (fun j : ℕ => W ((j : Int) - n))).getLast? = some (W (-1)) := by
  rw [List.getLast?_eq_getElem?]
  simp only [List.length_map, List.length_range]
  rw [windows_getElem? n (n.toNat - 1) (by omega)]
  congr 2
  omega

/-- C7 (amended). For every instant `now` read in a location without zone transitions
(`time.UTC`, a `time.FixedZone`) and every `n >= 1` such that the calendar days from
`n` days before `now` to the day before `now` lie in the years 0..9999,
`LastNDaysWith now n` returns exactly `n` daily windows, in strictly ascending order
of `Start`; the window at index `k` starts on the calendar day `n - k` days before
`now` and ends on the following calendar day; each `End` equals the next `Start`, and
the last `End` is the calendar date of `now`. The hypothesis `now.Valid` is the
well-formedness of the representation of `now`. -/
theorem LastNDaysWith_windows (now : Time) (n : Int) (hv : now.Valid) (hl : now.loc.tx = [])
    (hn : 1 ≤ n)
    (h0 : 0 ≤ (addDays now.Date (-n)).year) (h1 : (addDays now.Date (-1)).year ≤ 9999) :
    (LastNDaysWith now n).length = n.toNat ∧
    (∀ k : ℕ, (k : Int) < n → (LastNDaysWith now n)[k]? = some
        { Period := daily,
          Start := (addDays now.Date (-(n - k))).Format "2006-01-02",
          End := (addDays now.Date (-(n - k) + 1)).Format "2006-01-02" }) ∧
    (LastNDaysWith now n).Pairwise (fun a b => a.Start < b.Start) ∧
    (∀ (k : ℕ) (a b : Date), (LastNDaysWith now n)[k]? = some a →
        (LastNDaysWith now n)[k + 1]? = some b → a.End = b.Start) ∧
    (LastNDaysWith now n).getLast?.map (·.End) = some (now.Format "2006-01-02") := by
  have hd : now.Date.Valid := (abs_valid hv).1
  rw [LastNDaysWith_eq hv hl hn h0 h1]
  refine ⟨by simp, ?_, dailyWindow_sorted hd h0 h1, ?_, ?_⟩
  · intro k hk
    rw [windows_getElem? n k hk]
    have e : -(n - (k : Int)) = (k : Int) - n := by ring
    rw [e]
    rfl
  · intro k a b ha hb
    obtain ⟨_, rfl⟩ := windows_getElem?_some n k a ha
    obtain ⟨_, rfl⟩ := windows_getElem?_some n (k + 1) b hb
    simp only [dailyWindow]
    congr 2
    push_cast
    ring
  · rw [windows_getLast? n hn]
    simp [dailyWindow, addDays_zero, Time.Format]

/-- C7, witness: at 2019-01-01 03:00 in the fixed zone UTC+9 (2018-12-31 18:00 UTC)
`LastNDaysWith` with `n = 1` is the single window from yesterday, 2018-12-31, to
today, 2019-01-01, in that zone. -/
theorem LastNDaysWith_windows_witness :
    jstNewYear.Valid ∧ jstNewYear.loc.tx = [] ∧ (1 : Int) ≤ 1 ∧
    0 ≤ (addDays jstNewYear.Date (-1)).year ∧ (addDays jstNewYear.Date (-1)).year ≤ 9999 ∧
    (LastNDaysWith jstNewYear 1).length = 1 ∧
    (LastNDaysWith jstNewYear 1)[0]? = some ⟨"daily", "2018-12-31", "2019-01-01"⟩ :=
  ⟨by decide, by decide, by decide, by decide, by decide,
    (LastNDaysWith_windows jstNewYear 1 (by decide) (by decide) (by decide) (by decide)
      (by decide)).1,
    ((LastNDaysWith_windows jstNewYear 1 (by decide) (by decide) (by decide) (by decide)
      (by decide)).2.1 0 (by decide)).trans (by decide)⟩

/-- C7, counterexample, in two parts. At 2018-11-05 00:30 in `America/Sao_Paulo` with
`n = 1`, `AddDate(0, 0, -1)` asks for 2018-11-04 00:30, a reading that the start of
daylight saving time skips, and `time.Date` returns 2018-11-03 23:30: the single
window runs from 2018-11-03 to 2018-11-04, and its `End` is not the date of `now`,
2018-11-05. At 10000-01-02 00:00 UTC with `n = 2` the day two days before `now` is
9999-12-31, but the window at index 0 starts on 10000-01-01: the starts are sorted as
text, and "10000-01-01" sorts before "9999-12-31". -/
theorem LastNDaysWith_not_calendar_days :
    (saoPauloNow.Valid ∧ saoPauloNow.Format "2006-01-02" = "2018-11-05" ∧
      LastNDaysWith saoPauloNow 1 = [⟨"daily", "2018-11-03", "2018-11-04"⟩] ∧
      ¬ ((LastNDaysWith saoPauloNow 1).getLast?.map (·.End)
          = some (saoPauloNow.Format "2006-01-02"))) ∧
    ((utcTime ⟨10000, 1, 2⟩ 0).Valid ∧
      LastNDaysWith (utcTime ⟨10000, 1, 2⟩ 0) 2 =
        [⟨"daily", "10000-01-01", "10000-01-02"⟩, ⟨"daily", "9999-12-31", "10000-01-01"⟩] ∧
      (addDays (utcTime ⟨10000, 1, 2⟩ 0).Date (-2)).Format "2006-01-02" = "9999-12-31" ∧
      ¬ ((LastNDaysWith (utcTime ⟨10000, 1, 2⟩ 0) 2)[0]? = some
          { Period := daily,
            Start := (addDays (utcTime ⟨10000, 1, 2⟩ 0).Date (-2)).Format "2006-01-02",
            End := (addDays (utcTime ⟨10000, 1, 2⟩ 0).Date (-2 + 1)).Format "2006-01-02" })) := by
  have e1 : LastNDaysWith saoPauloNow 1 = [⟨"daily", "2018-11-03", "2018-11-04"⟩] := by
    unfold LastNDaysWith
    rw [sortSlice_Start]
    set_option maxRecDepth 100000 in decide
  have e2 : LastNDaysWith (utcTime ⟨10000, 1, 2⟩ 0) 2 =
      [⟨"daily", "10000-01-01", "10000-01-02"⟩, ⟨"daily", "9999-12-31", "10000-01-01"⟩] := by
    unfold LastNDaysWith
    rw [sortSlice_Start]
    set_option maxRecDepth 100000 in decide
  refine ⟨⟨by decide, by decide, e1, ?_⟩, ⟨by decide, e2, by decide, ?_⟩⟩
  · rw [e1]
    set_option maxRecDepth 100000 in decide
  · rw [e2]
    set_option maxRecDepth 100000 in decide

/-- C8 (amended). `LastNMonthsWith now n` panics for `n < 1` and for `n > 12`. For an
instant `now` read in a location without zone transitions (`time.UTC`, a
`time.FixedZone`) and `1 <= n <= 12`, when the `n` calendar months before the month
of `now` lie in the years 0..9999, it returns exactly `n` monthly windows in strictly
ascending order of `Start`: the window at index `k` starts on the first day of the
month `n - k` months before the month of `now` and ends on the first day of the
following month; each `End` equals the next `Start`, and the last `End` is the first
day of the month of `now`, whatever the day of the month of `now`. The hypothesis
`now.Valid` is the well-formedness of the representation of `now`. -/
theorem LastNMonthsWith_windows (now : Time) (hv : now.Valid) :
    (∀ n : Int, n < 1 ∨ 12 < n → LastNMonthsWith now n = none) ∧
    (now.loc.tx = [] → ∀ n : Int, 1 ≤ n → n ≤ 12 →
      0 ≤ (monthStart now.Date (-n)).year → (monthStart now.Date (-1)).year ≤ 9999 →
      ∃ out, LastNMonthsWith now n = some out ∧ out.length = n.toNat ∧
        (∀ k : ℕ, (k : Int) < n → out[k]? = some
          { Period := monthly,
            Start := (monthStart now.Date (-(n - k))).Format "2006-01-02",
            End := (monthStart now.Date (-(n - k) + 1)).Format "2006-01-02" }) ∧
        out.Pairwise (fun a b => a.Start < b.Start) ∧
        (∀ (k : ℕ) (a b : Date), out[k]? = some a → out[k + 1]? = some b → a.End = b.Start) ∧
        out.getLast?.map (·.End)
          = some ((Civil.mk now.Date.year now.Date.month 1).Format "2006-01-02")) := by
  refine ⟨fun n h => LastNMonthsWith_panics now n h, ?_⟩
  intro hl n hn hn2 h0 h1
  refine ⟨_, LastNMonthsWith_eq hv hl hn hn2 h0 h1, by simp, ?_,
    monthlyWindow_sorted now.Date h0 h1, ?_, ?_⟩
  · intro k hk
    rw [windows_getElem? n k hk]
    have e : -(n - (k : Int)) = (k : Int) - n := by ring
    rw [e]
    rfl
  · intro k a b ha hb
    obtain ⟨_, rfl⟩ := windows_getElem?_some n k a ha
    obtain ⟨_, rfl⟩ := windows_getElem?_some n (k + 1) b hb
    simp only [monthlyWindow]
    congr 2
    push_cast
    ring
  · rw [windows_getLast? n hn]
    obtain ⟨a1, a2, _, _⟩ := (abs_valid hv).1
    have e : monthStart now.Date (-1 + 1) = Civil.mk now.Date.year now.Date.month 1 := by
      simp only [monthStart]
      congr 1
      · omega
      · omega
    simp only [monthlyWindow, e, Option.map_some']

/-- C8, witness: at 2019-03-31 12:00 UTC with `n = 12` the twelve windows run from
March 2018 to February 2019, the first from 2018-03-01 to 2018-04-01, the last ending
on 2019-03-01; with `n = 13` the function panics. -/
theorem LastNMonthsWith_windows_witness :
    (utcTime ⟨2019, 3, 31⟩ 43200).Valid ∧ (utcTime ⟨2019, 3, 31⟩ 43200).loc.tx = [] ∧
    LastNMonthsWith (utcTime ⟨2019, 3, 31⟩ 43200) 13 = none ∧
    ∃ out, LastNMonthsWith (utcTime ⟨2019, 3, 31⟩ 43200) 12 = some out ∧ out.length = 12 ∧
      out[0]? = some ⟨"monthly", "2018-03-01", "2018-04-01"⟩ ∧
      out.getLast?.map (·.End) = some "2019-03-01" :=
  ⟨by decide, by decide,
    (LastNMonthsWith_windows (utcTime ⟨2019, 3, 31⟩ 43200) (by decide)).1 13 (by decide),
    match (LastNMonthsWith_windows (utcTime ⟨2019, 3, 31⟩ 43200) (by decide)).2 (by decide) 12
      (by decide) (by decide) (by decide) (by decide) with
    | ⟨out, e, hl, hk, _, _, hlast⟩ =>
      ⟨out, e, hl, (hk 0 (by decide)).trans (by decide), hlast.trans (by decide)⟩⟩

/-- C8, counterexample, in two parts. At 2017-11-15 00:30 in `America/Asuncion` with
`n = 1`, `AddDate(0, -1, -14)` asks for 2017-10-01 00:30, a reading that the start of
daylight saving time skips, and `time.Date` returns 2017-09-30 23:30: the single
window is September, from 2017-09-01 to 2017-10-01, not October, and its `End` is not
the first day of the month of `now`, 2017-11-01. At 10000-02-15 00:00 UTC with
`n = 2` the two windows come out as January 10000 first and December 9999 second: the
last `End` is 10000-01-01, not the first day of the month of `now` (10000-02-01). -/
theorem LastNMonthsWith_not_preceding_months :
    (asuncionNow.Valid ∧
      (Civil.mk asuncionNow.Date.year asuncionNow.Date.month 1).Format "2006-01-02"
        = "2017-11-01" ∧
      LastNMonthsWith asuncionNow 1 = some [⟨"monthly", "2017-09-01", "2017-10-01"⟩] ∧
      ¬ (∃ out, LastNMonthsWith asuncionNow 1 = some out ∧
          out.getLast?.map (·.End) = some
            ((Civil.mk asuncionNow.Date.year asuncionNow.Date.month 1).Format "2006-01-02"))) ∧
    ((utcTime ⟨10000, 2, 15⟩ 0).Valid ∧
      LastNMonthsWith (utcTime ⟨10000, 2, 15⟩ 0) 2 =
        some [⟨"monthly", "10000-01-01", "10000-02-01"⟩,
          ⟨"monthly", "9999-12-01", "10000-01-01"⟩] ∧
      (Civil.mk (utcTime ⟨10000, 2, 15⟩ 0).Date.year (utcTime ⟨10000, 2, 15⟩ 0).Date.month
        1).Format "2006-01-02" = "10000-02-01" ∧
      ¬ (∃ out, LastNMonthsWith (utcTime ⟨10000, 2, 15⟩ 0) 2 = some out ∧
          out.getLast?.map (·.End) = some
            ((Civil.mk (utcTime ⟨10000, 2, 15⟩ 0).Date.year
              (utcTime ⟨10000, 2, 15⟩ 0).Date.month 1).Format "2006-01-02"))) := by
  have e1 : LastNMonthsWith asuncionNow 1 = some [⟨"monthly", "2017-09-01", "2017-10-01"⟩] := by
    unfold LastNMonthsWith
    simp only [sortSlice_Start]
    set_option maxRecDepth 100000 in decide
  have e2 : LastNMonthsWith (utcTime ⟨10000, 2, 15⟩ 0) 2 =
      some [⟨"monthly", "10000-01-01", "10000-02-01"⟩,
        ⟨"monthly", "9999-12-01", "10000-01-01"⟩] := by
    unfold LastNMonthsWith
    simp only [sortSlice_Start]
    set_option maxRecDepth 100000 in decide
  refine ⟨⟨by decide, by decide, e1, ?_⟩, ⟨by decide, e2, by decide, ?_⟩⟩
  · rintro ⟨out, h1, h2⟩
    rw [e1] at h1
    cases h1
    revert h2
    set_option maxRecDepth 100000 in decide
  · rintro ⟨out, h1, h2⟩
    rw [e2] at h1
    cases h1
    revert h2
    set_option maxRecDepth 100000 in decide

/-! ### calendar: Last -/

theorem HasSuffix_singleton (s : List ℕ) (c : ℕ) :
    HasSuffix s [c] = true ↔ s.getLast? = some c := by
  unfold HasSuffix
  rw [List.isSuffixOf_iff_suffix]
  constructor
  · rintro ⟨t, rfl⟩
    simp
  · intro h
    rw [List.getLast?_eq_some_iff] at h
    obtain ⟨t, rfl⟩ := h
    exact ⟨t, rfl⟩

theorem Last_some (now : Time) (period : List ℕ) (hne : period ≠ []) (n : Int)
    (hA : Atoi period.dropLast = some n) :
    Last now period =
      if period.getLast? = some 109 then (LastNMonthsWith now n).map (fun d => (d, none))
      else if period.getLast? = some 100 then some (LastNDaysWith now n, none)
      else some ([], none) := by
  have hlen : ¬ period.length = 0 := fun h => hne (List.length_eq_zero.mp h)
  have htake : period.take (period.length - 1) = period.dropLast :=
    (List.dropLast_eq_take period).symm
  have hm := HasSuffix_singleton period 109
  have hd := HasSuffix_singleton period 100
  unfold Last
  simp only [hlen, if_false, htake, hA, LastNMonths, LastNDays]
  by_cases h1 : period.getLast? = some 109
  · have h2 : ¬ period.getLast? = some 100 := by rw [h1]; decide
    have h2' : ¬ HasSuffix period [100] = true := fun h => h2 (hd.mp h)
    simp only [hm.mpr h1, h1, h2', if_true, if_false]
    cases LastNMonthsWith now n <;> rfl
  · have h1' : ¬ HasSuffix period [109] = true := fun h => h1 (hm.mp h)
    by_cases h2 : period.getLast? = some 100
    · simp only [h1', h1, hd.mpr h2, h2, if_true, if_false]
      rfl
    · have h2' : ¬ HasSuffix period [100] = true := fun h => h2 (hd.mp h)
      simp only [h1', h1, h2', h2, if_false]
      rfl

theorem Last_none (now : Time) (period : List ℕ) (hne : period ≠ [])
    (hA : Atoi period.dropLast = none) :
    Last now period = some ([], some "invalid period") := by
  have hlen : ¬ period.length = 0 := fun h => hne (List.length_eq_zero.mp h)
  have htake : period.take (period.length - 1) = period.dropLast :=
    (List.dropLast_eq_take period).symm
  unfold Last
  simp only [hlen, if_false, htake, hA]
  rfl

/-- C10. For every non-empty period string, `Last` returns a non-nil error, and with
it an empty list, exactly when the text before the final byte is not accepted by
`strconv.Atoi`. When that text parses as `n`, `Last` returns no error and the result
is `LastNMonths(n)` if the final byte is `m` (for `1 <= n <= 12`, where `LastNMonths`
returns), `LastNDays(n)` if it is `d`, and the empty list for any other final byte. -/
theorem Last_spec (now : Time) (period : List ℕ) (hne : period ≠ []) :
    (Atoi period.dropLast = none → Last now period = some ([], some "invalid period")) ∧
    (∀ date err, Last now period = some (date, some err) →
      Atoi period.dropLast = none ∧ date = []) ∧
    (∀ n, Atoi period.dropLast = some n →
      (period.getLast? = some 109 → 1 ≤ n → n ≤ 12 →
        ∃ months, LastNMonths now n = some months ∧ Last now period = some (months, none)) ∧
      (period.getLast? = some 100 → Last now period = some (LastNDays now n, none)) ∧
      (period.getLast? ≠ some 109 → period.getLast? ≠ some 100 →
        Last now period = some ([], none))) := by
  refine ⟨Last_none now period hne, ?_, ?_⟩
  · intro date err h
    cases hA : Atoi period.dropLast with
    | none =>
      rw [Last_none now period hne hA] at h
      simp only [Option.some.injEq, Prod.mk.injEq] at h
      exact ⟨rfl, h.1.symm⟩
    | some n =>
      rw [Last_some now period hne n hA] at h
      split_ifs at h
      · cases hM : LastNMonthsWith now n with
        | none => rw [hM] at h; simp at h
        | some v => rw [hM] at h; simp at h
      · simp at h
      · simp at h
  · intro n hA
    refine ⟨?_, ?_, ?_⟩
    · intro h1 hn1 hn2
      have hc : ¬ (n < 1 ∨ n > 12) := by omega
      rw [Last_some now period hne n hA, if_pos h1]
      unfold LastNMonths
      cases hM : LastNMonthsWith now n with
      | none =>
        unfold LastNMonthsWith at hM
        simp [hc] at hM
      | some v => exact ⟨v, rfl, rfl⟩
    · intro h2
      have h1 : ¬ period.getLast? = some 109 := by rw [h2]; decide
      rw [Last_some now period hne n hA, if_neg h1, if_pos h2]
      rfl
    · intro h1 h2
      rw [Last_some now period hne n hA, if_neg h1, if_neg h2]

/-- C10, witness: the period "3m" parses as 3 with final byte `m`, and `Last` returns
the three months of `LastNMonths` with no error. -/
theorem Last_spec_witness : ascii "3m" ≠ [] ∧ Atoi (ascii "3m").dropLast = some 3 ∧
    (ascii "3m").getLast? = some 109 ∧
    ∃ months, LastNMonths (utcTime ⟨2019, 3, 31⟩ 0) 3 = some months ∧
      Last (utcTime ⟨2019, 3, 31⟩ 0) (ascii "3m") = some (months, none) :=
  ⟨by decide, by decide, by decide,
    ((Last_spec (utcTime ⟨2019, 3, 31⟩ 0) (ascii "3m") (by decide)).2.2 3 (by decide)).1
      (by decide) (by decide) (by decide)⟩

/-! ### internal/awsprice: the cost model (spec-modelled) -/

/-- C1. For every price record with on-demand rate `r` and lease term of `y` years
(`y = 1` for a 1-year lease, `y = 3` for a 3-year lease) and all counts `a`, `b`,
`ExpectedCost a b` reports the full-on-demand cost `r * 8760 * y * (a + b)`; for the
record of `TestExpect` (rate 0.129, 1 year) and `a = 2`, `b = 3` it is 5650.2. -/
theorem ExpectedCost_fullOnDemand (r : Record) (a b : ℕ) :
    (r.ExpectedCost a b).FullOnDemand
      = r.OnDemand * 8760 * (termYears r.LeaseContractLength : ℚ) * ((a : ℚ) + (b : ℚ))
    ∧ termYears .yr1 = 1 ∧ termYears .yr3 = 3
    ∧ (testRecord.ExpectedCost 2 3).FullOnDemand = 56502 / 10 := by
  refine ⟨?_, rfl, rfl, ?_⟩
  · simp only [Record.ExpectedCost, Record.termHours, hoursPerYear]
    push_cast
    ring
  · simp only [Record.ExpectedCost, Record.termHours, hoursPerYear, testRecord, m4large,
      termYears]
    norm_num

theorem find?_range'_eq_some (p : ℕ → Bool) (n s m : ℕ) :
    (List.range' s n).find? p = some m ↔
      s ≤ m ∧ m < s + n ∧ p m = true ∧ ∀ k, s ≤ k → k < m → p k = false := by
  induction n generalizing s with
  | zero => simp; omega
  | succ n ih =>
    rw [List.range'_succ, List.find?_cons]
    cases hp : p s with
    | true =>
      simp only [Option.some.injEq]
      constructor
      · rintro rfl
        exact ⟨le_refl _, by omega, hp, fun k h1 h2 => by omega⟩
      · rintro ⟨h1, _, _, h4⟩
        by_contra hne
        have := h4 s (le_refl _) (by omega)
        simp [hp] at this
    | false =>
      simp only [ih]
      constructor
      · rintro ⟨h1, h2, h3, h4⟩
        refine ⟨by omega, by omega, h3, fun k hk1 hk2 => ?_⟩
        rcases Nat.eq_or_lt_of_le hk1 with rfl | hlt
        · exact hp
        · exact h4 k hlt hk2
      · rintro ⟨h1, h2, h3, h4⟩
        have hne : s ≠ m := by
          rintro rfl
          simp [hp] at h3
        exact ⟨by omega, by omega, h3, fun k hk1 hk2 => h4 k (by omega) hk2⟩

theorem find?_range'_eq_none (p : ℕ → Bool) (n s : ℕ) :
    (List.range' s n).find? p = none ↔ ∀ k, s ≤ k → k < s + n → p k = false := by
  simp [List.find?_eq_none, List.mem_range'_1]

theorem hoursPerMonth_eq (r : Record) : r.hoursPerMonth = 730 := by
  unfold Record.hoursPerMonth Record.termHours Record.termMonths hoursPerYear
  cases r.LeaseContractLength <;> simp [termYears] <;> norm_num

theorem breakeven_eval (r : Record) (m : ℕ) (h1 : 1 ≤ m) (h2 : m ≤ r.termMonths)
    (h3 : r.ReservedQuantity + r.ReservedHrs * 730 * m ≤ r.OnDemand * 730 * m)
    (h4 : m = 1 ∨
      r.OnDemand * 730 * (m - 1 : ℕ) < r.ReservedQuantity + r.ReservedHrs * 730 * (m - 1 : ℕ))
    (h5 : r.ReservedHrs ≤ r.OnDemand) :
    r.BreakevenPointInMonth = some m := by
  rw [Record.BreakevenPointInMonth, find?_range'_eq_some]
  refine ⟨h1, by omega, ?_, ?_⟩
  · simpa [Record.reservedCostAt, Record.onDemandCostAt, hoursPerMonth_eq] using h3
  · intro k hk1 hk2
    simp only [Record.reservedCostAt, Record.onDemandCostAt, hoursPerMonth_eq,
      decide_eq_false_iff_not, not_le]
    rcases h4 with rfl | h4
    · omega
    · have hk : (k : ℚ) ≤ ((m - 1 : ℕ) : ℚ) := by
        have : k ≤ m - 1 := by omega
        exact_mod_cast this
      nlinarith

theorem testRecord_breakeven : testRecord.BreakevenPointInMonth = some 8 := by
  apply breakeven_eval <;> simp [testRecord, m4large, Record.termMonths, termYears] <;>
    norm_num

/-- C2 (amended). For every price record for which some month of `1..termMonths`
satisfies `upfront + reservedHourlyRate * hoursPerMonth * m <= onDemandRate *
hoursPerMonth * m`, `BreakevenPointInMonth` returns the smallest such month: the
returned `m` is in range, satisfies the inequality, and no smaller month from 1 on
does. -/
theorem BreakevenPointInMonth_smallest (r : Record)
    (h : ∃ m, 1 ≤ m ∧ m ≤ r.termMonths ∧ r.reservedCostAt m ≤ r.onDemandCostAt m) :
    ∃ m, r.BreakevenPointInMonth = some m ∧ 1 ≤ m ∧ m ≤ r.termMonths ∧
      r.reservedCostAt m ≤ r.onDemandCostAt m ∧
      ∀ k, 1 ≤ k → k < m → ¬ r.reservedCostAt k ≤ r.onDemandCostAt k := by
  obtain ⟨m0, h1, h2, h3⟩ := h
  cases hb : r.BreakevenPointInMonth with
  | none =>
    rw [Record.BreakevenPointInMonth, find?_range'_eq_none] at hb
    have := hb m0 h1 (by omega)
    simp [h3] at this
  | some m =>
    rw [Record.BreakevenPointInMonth, find?_range'_eq_some] at hb
    obtain ⟨a, b, c, d⟩ := hb
    refine ⟨m, rfl, a, by omega, by simpa using c, fun k hk1 hk2 => ?_⟩
    simpa using d k hk1 hk2

/-- C2, witness: the All Upfront record of `TestExpect` (rate 0.129, upfront 713)
breaks even in month 8, as `TestBreakevenPoint1yr` expects. -/
theorem BreakevenPointInMonth_smallest_witness :
    (∃ m, 1 ≤ m ∧ m ≤ testRecord.termMonths ∧
      testRecord.reservedCostAt m ≤ testRecord.onDemandCostAt m) ∧
    (∃ m, testRecord.BreakevenPointInMonth = some m ∧ 1 ≤ m ∧ m ≤ testRecord.termMonths ∧
      testRecord.reservedCostAt m ≤ testRecord.onDemandCostAt m ∧
      ∀ k, 1 ≤ k → k < m → ¬ testRecord.reservedCostAt k ≤ testRecord.onDemandCostAt k) ∧
    testRecord.BreakevenPointInMonth = some 8 :=
  have hw : ∃ m, 1 ≤ m ∧ m ≤ testRecord.termMonths ∧
      testRecord.reservedCostAt m ≤ testRecord.onDemandCostAt m :=
    ⟨8, by decide, by decide, by
      simp only [Record.reservedCostAt, Record.onDemandCostAt, hoursPerMonth_eq, testRecord,
        m4large]
      norm_num⟩
  ⟨hw, BreakevenPointInMonth_smallest testRecord hw, testRecord_breakeven⟩

/-- C2, counterexample. For an All Upfront offer whose upfront price (2000) exceeds the
on-demand cost of the whole term (0.129 * 8760 = 1130.04), no month of
`1..termMonths` satisfies the inequality, so `BreakevenPointInMonth` returns no month
of the range that satisfies it. -/
theorem BreakevenPointInMonth_no_month :
    (∀ m, 1 ≤ m → m ≤ overpriced.termMonths →
        ¬ overpriced.reservedCostAt m ≤ overpriced.onDemandCostAt m) ∧
    ¬ ∃ m, overpriced.BreakevenPointInMonth = some m ∧ 1 ≤ m ∧ m ≤ overpriced.termMonths ∧
        overpriced.reservedCostAt m ≤ overpriced.onDemandCostAt m := by
  have key : ∀ m, 1 ≤ m → m ≤ overpriced.termMonths →
      ¬ overpriced.reservedCostAt m ≤ overpriced.onDemandCostAt m := by
    intro m _ h2
    have h12 : (m : ℚ) ≤ 12 := by
      have : m ≤ 12 := h2
      exact_mod_cast this
    simp only [Record.reservedCostAt, Record.onDemandCostAt, hoursPerMonth_eq]
    simp only [overpriced, m4large]
    intro hle
    nlinarith
  refine ⟨key, ?_⟩
  rintro ⟨m, _, h1, h2, h3⟩
  exact key m h1 h2 h3

/-- C4. For every non-empty forecast and every price record that carries no existing
reserved commitment, `ExpectedInstanceNum` returns as on-demand requirement the
arithmetic mean of the instance counts (their sum divided by their number, so that
the requirement times the number of entries is their sum) and a reserved requirement
of 0. -/
theorem ExpectedInstanceNum_mean (r : Record) (forecast : List Forecast)
    (h : forecast ≠ []) :
    (r.ExpectedInstanceNum none forecast).OnDemandInstanceNum
        = (forecast.map (·.InstanceNum)).sum / (forecast.length : ℚ) ∧
      (r.ExpectedInstanceNum none forecast).OnDemandInstanceNum * (forecast.length : ℚ)
        = (forecast.map (·.InstanceNum)).sum ∧
      (r.ExpectedInstanceNum none forecast).ReservedInstanceNum = 0 := by
  have hlen : (forecast.length : ℚ) ≠ 0 := by
    have : forecast.length ≠ 0 := fun h0 => h (List.length_eq_zero.mp h0)
    exact_mod_cast this
  refine ⟨rfl, ?_, rfl⟩
  simp only [Record.ExpectedInstanceNum, meanInstanceNum]
  exact div_mul_cancel₀ _ hlen

/-- C4, witness: the counts 10, 20, 10, 20, 10, 20 of `TestExpect` give the on-demand
requirement 15 and the reserved requirement 0. -/
theorem ExpectedInstanceNum_mean_witness :
    testForecast ≠ [] ∧
    (testRecord.ExpectedInstanceNum none testForecast).OnDemandInstanceNum = 15 ∧
    (testRecord.ExpectedInstanceNum none testForecast).ReservedInstanceNum = 0 :=
  ⟨by simp [testForecast],
    (ExpectedInstanceNum_mean testRecord testForecast (by simp [testForecast])).1.trans
      (by simp [testForecast]; norm_num),
    (ExpectedInstanceNum_mean testRecord testForecast (by simp [testForecast])).2.2⟩

theorem apply_eq_filter (rs : RecordList) (a : Narrowing) :
    a.apply rs = rs.filter a.keeps := by
  cases a <;> rfl

theorem narrowAll_eq_filter (ops : List Narrowing) (seed : RecordList) :
    narrowAll seed ops = seed.filter (fun r => ops.all (fun a => a.keeps r)) := by
  induction ops generalizing seed with
  | nil => simp [narrowAll]
  | cons a ops ih =>
    have : narrowAll seed (a :: ops) = narrowAll (a.apply seed) ops := rfl
    rw [this, ih, apply_eq_filter, List.filter_filter]
    congr 1
    funext r
    simp [Bool.and_comm]

/-- C5. For every offer set and every two narrowing operations, each with any
argument, applying them in either order yields the identical offer set, and that set
is a sublist of the seed (its members are members of the seed, in the order of the
seed). Hence two filter chains over the same seed whose operations are a permutation
of each other give the same offer set. -/
theorem narrowing_commutes (rs : RecordList) (a b : Narrowing) :
    b.apply (a.apply rs) = a.apply (b.apply rs) ∧
    (b.apply (a.apply rs)).Sublist rs ∧
    (∀ ops ops2 : List Narrowing, ops.Perm ops2 → narrowAll rs ops = narrowAll rs ops2) := by
  refine ⟨?_, ?_, ?_⟩
  · simp only [apply_eq_filter, List.filter_filter, Bool.and_comm]
  · simp only [apply_eq_filter]
    exact (List.filter_sublist _).trans (List.filter_sublist _)
  · intro ops ops2 hp
    rw [narrowAll_eq_filter, narrowAll_eq_filter]
    congr 1
    funext r
    rw [Bool.eq_iff_iff]
    simp only [List.all_eq_true]
    exact ⟨fun h x hx => h x (hp.mem_iff.mpr hx), fun h x hx => h x (hp.mem_iff.mp hx)⟩

end Hermes
